import Mathlib

/-! Star-join benchmark (`benchmark.cpp`): embedding and verification.

The development embeds the data model and the functions of `benchmark.cpp`:

* `get_fact_table` with its recursive lambda `rec_pointer`, and a copy of it
  that records the events of a run,
* the setup loop, the two tuple callbacks, the two scans and the output of
  `evaluate_for_n_dimensions`,
* the loop of `main` with its guard.

Conventions of the embedding.

* `std::vector<T>` is `List T`; `emplace_back` appends at the end, `pop_back`
  removes the last element.
* `size_t` values are natural numbers; the only `size_t` operation of the
  program that can wrap, `number_of_dimension_tables - 1`, is taken modulo
  `2 ^ 64`.
* The constants `number_of_tuples_in_dimension_tables` and
  `number_of_tuples_in_fact_table` are parameters `k` and `L` of the embedded
  functions; the source values are kept as definitions.
* A result `none` stands for undefined behaviour of the C++ program (access
  outside a vector, `pop_back` on an empty vector, dereferencing a null
  `shared_ptr`) or for an exhausted recursion budget; `get_fact_table` starts
  the recursion with a budget that is never exhausted.
* Measured times are values of a type that is not looked into, and the library
  function `pow` is a parameter of `main`.
-/

namespace Benchmark

/-! ## Data model -/

/-- A tuple of a dimension table (`class DimensionObject`). -/
structure DimensionObject where
  id_ : Nat
  info_ : String
deriving DecidableEq, Repr

/-- A tuple of the fact table (`class FactTableObject<T>`). -/
structure FactTableObject (T : Type) where
  relations_ : List T
deriving DecidableEq, Repr

/-- The constant `number_of_tuples_in_dimension_tables`. -/
def number_of_tuples_in_dimension_tables : Nat := 100

/-- The constant `max_number_of_dimension_tables`. -/
def max_number_of_dimension_tables : Nat := 10

/-- The constant `number_of_repetitions`. -/
def number_of_repetitions : Nat := 10

/-- The constant `number_of_tuples_in_fact_table`. -/
def number_of_tuples_in_fact_table : Nat := 50000000

/-- Number of values of the type `size_t`. -/
def size_t_modulus : Nat := 2 ^ 64

/-- The `size_t` expression `number_of_dimension_tables - 1`. -/
def last_dimension_table_index (number_of_dimension_tables : Nat) : Nat :=
  (number_of_dimension_tables + size_t_modulus - 1) % size_t_modulus

/-- A `std::shared_ptr<T>`: null, or a handle on an object. The program never
writes through a handle, so a handle is represented by the object it owns. -/
abbrev shared_ptr (T : Type) : Type := Option T

/-- `DimensionTable`: a vector of dimension objects. -/
abbrev DimensionTable : Type := List DimensionObject

/-- `DimensionTableIndex`: a hash map from ids to handles, kept as the list of
its entries with pairwise different keys. -/
abbrev DimensionTableIndex : Type := List (Nat × shared_ptr DimensionObject)

/-! ## `get_fact_table` -/

/-- The variables `get_fact_table` works on: the state `captured` by the
callback, the vector `current_tuple` (passed by reference and shared with the
callback), and the locals `fact_table` and `tuples_in_fact_table`. -/
structure Enumeration (σ T : Type) where
  captured : σ
  current_tuple : List T
  fact_table : List (FactTableObject T)
  tuples_in_fact_table : Nat

/-- A `std::function<void(size_t i, size_t j)>` that may read and write its
captured state and the current tuple. -/
abbrev Callback (σ T : Type) : Type := Nat → Nat → σ × List T → Option (σ × List T)

/-- Method `std::vector::pop_back`; undefined on an empty vector. -/
def pop_back {T : Type} : List T → Option (List T)
  | [] => none
  | x :: xs => some (x :: xs).dropLast

/-- The `for` loop of `rec_pointer` at level `dimension_table_index`, run over
the remaining values of `tuple_index`. `last` is the value of
`number_of_dimension_tables - 1`, and `rec_function` the recursive call. -/
def for_tuple_index {σ T : Type} (L : Nat) (add_entry_to_tuple : Callback σ T)
    (last dimension_table_index : Nat)
    (rec_function : Nat → Enumeration σ T → Option (Enumeration σ T)) :
    List Nat → Enumeration σ T → Option (Enumeration σ T)
  | [], s => some s
  | tuple_index :: rest, s =>
    if L ≤ s.tuples_in_fact_table then
      some s
    else
      match add_entry_to_tuple dimension_table_index tuple_index (s.captured, s.current_tuple) with
      | none => none
      | some (c, t) =>
        match (if dimension_table_index < last then
                 rec_function (dimension_table_index + 1) ⟨c, t, s.fact_table, s.tuples_in_fact_table⟩
               else
                 some ⟨c, t, s.fact_table ++ [⟨t⟩], s.tuples_in_fact_table + 1⟩) with
        | none => none
        | some s2 =>
          match pop_back s2.current_tuple with
          | none => none
          | some t3 =>
            for_tuple_index L add_entry_to_tuple last dimension_table_index rec_function rest
              ⟨s2.captured, t3, s2.fact_table, s2.tuples_in_fact_table⟩

/-- The recursive lambda `rec_pointer`; `budget` bounds the depth of the
recursion that is still allowed. -/
def rec_pointer {σ T : Type} (k L : Nat) (add_entry_to_tuple : Callback σ T) (last : Nat) :
    Nat → Nat → Enumeration σ T → Option (Enumeration σ T)
  | 0, _, _ => none
  | budget + 1, dimension_table_index, s =>
    for_tuple_index L add_entry_to_tuple last dimension_table_index
      (rec_pointer k L add_entry_to_tuple last budget) (List.range k) s

/-- Function `get_fact_table`, with the row count `k` of a dimension table and
the cap `L` as parameters. The result holds the fact table together with the
final values of the callback state and of `current_tuple`. -/
def get_fact_table {σ T : Type} (k L : Nat) (number_of_dimension_tables : Nat)
    (captured : σ) (current_tuple : List T) (add_entry_to_tuple : Callback σ T) :
    Option (Enumeration σ T) :=
  rec_pointer k L add_entry_to_tuple (last_dimension_table_index number_of_dimension_tables)
    (last_dimension_table_index number_of_dimension_tables + 1) 0
    ⟨captured, current_tuple, [], 0⟩

/-- A callback without state that appends `encode i j` to the current tuple. -/
def push_encoded {T : Type} (encode : Nat → Nat → T) : Callback Unit T :=
  fun i j s => some (s.1, s.2 ++ [encode i j])

/-- The callback that records the row index `j`. -/
def push_row_index : Callback Unit Nat :=
  push_encoded (fun _ j => j)

/-- The callback that appends `encode i j` and writes the pair `(i, j)` it was
called with to a log kept in its captured state. -/
def push_logged {T : Type} (encode : Nat → Nat → T) : Callback (List (Nat × Nat)) T :=
  fun i j s => some (s.1 ++ [(i, j)], s.2 ++ [encode i j])

/-- The fact table of a run, as the list of its tuples. -/
def tuples_of {σ T : Type} (r : Option (Enumeration σ T)) : Option (List (List T)) :=
  r.map (fun s => s.fact_table.map (fun o => o.relations_))

/-! ## `get_fact_table` with a record of what it does -/

/-- What a run of `rec_pointer` does, in the order it does it: the lambda is
entered at a level, the callback is called, a tuple is appended to the fact
table. A call and an append are recorded with the value that the counter
`tuples_in_fact_table` has at that moment. -/
inductive Event where
  | enter (dimension_table_index : Nat)
  | call (dimension_table_index tuple_index tuples_in_fact_table : Nat)
  | emit (tuples_in_fact_table : Nat)
deriving DecidableEq, Repr

/-- The loop `for_tuple_index`, which also appends what it does to a list of
events. -/
def for_tuple_index_events {σ T : Type} (L : Nat) (add_entry_to_tuple : Callback σ T)
    (last dimension_table_index : Nat)
    (rec_function : Nat → Enumeration σ T × List Event → Option (Enumeration σ T × List Event)) :
    List Nat → Enumeration σ T × List Event → Option (Enumeration σ T × List Event)
  | [], s => some s
  | tuple_index :: rest, s =>
    if L ≤ s.1.tuples_in_fact_table then
      some s
    else
      match add_entry_to_tuple dimension_table_index tuple_index
          (s.1.captured, s.1.current_tuple) with
      | none => none
      | some (c, t) =>
        match (if dimension_table_index < last then
                 rec_function (dimension_table_index + 1)
                   (⟨c, t, s.1.fact_table, s.1.tuples_in_fact_table⟩,
                    s.2 ++ [Event.call dimension_table_index tuple_index
                      s.1.tuples_in_fact_table])
               else
                 some (⟨c, t, s.1.fact_table ++ [⟨t⟩], s.1.tuples_in_fact_table + 1⟩,
                   s.2 ++ [Event.call dimension_table_index tuple_index
                       s.1.tuples_in_fact_table,
                     Event.emit s.1.tuples_in_fact_table])) with
        | none => none
        | some s2 =>
          match pop_back s2.1.current_tuple with
          | none => none
          | some t3 =>
            for_tuple_index_events L add_entry_to_tuple last dimension_table_index rec_function
              rest (⟨s2.1.captured, t3, s2.1.fact_table, s2.1.tuples_in_fact_table⟩, s2.2)

/-- The lambda `rec_pointer`, which also appends what it does to a list of
events. -/
def rec_pointer_events {σ T : Type} (k L : Nat) (add_entry_to_tuple : Callback σ T)
    (last : Nat) :
    Nat → Nat → Enumeration σ T × List Event → Option (Enumeration σ T × List Event)
  | 0, _, _ => none
  | budget + 1, dimension_table_index, s =>
    for_tuple_index_events L add_entry_to_tuple last dimension_table_index
      (rec_pointer_events k L add_entry_to_tuple last budget) (List.range k)
      (s.1, s.2 ++ [Event.enter dimension_table_index])

/-- Function `get_fact_table` together with the list of the events of the
run. -/
def get_fact_table_events {σ T : Type} (k L : Nat) (number_of_dimension_tables : Nat)
    (captured : σ) (current_tuple : List T) (add_entry_to_tuple : Callback σ T) :
    Option (Enumeration σ T × List Event) :=
  rec_pointer_events k L add_entry_to_tuple
    (last_dimension_table_index number_of_dimension_tables)
    (last_dimension_table_index number_of_dimension_tables + 1) 0
    (⟨captured, current_tuple, [], 0⟩, [])

/-! ## `evaluate_for_n_dimensions` -/

/-- Function `std::to_string` on a `size_t`: the decimal text of the number. -/
def to_string (j : Nat) : String := Nat.repr j

/-- Lookup `m[key]` in a `DimensionTableIndex` by `operator[]`: a key that is
missing is inserted with a null handle. The result is the map after the call
and the handle stored under `key`. -/
def subscript (m : DimensionTableIndex) (key : Nat) :
    DimensionTableIndex × shared_ptr DimensionObject :=
  match m.lookup key with
  | some handle => (m, handle)
  | none => (m ++ [(key, none)], none)

/-- Assignment `m[key] = handle` to a `DimensionTableIndex`. -/
def assign (m : DimensionTableIndex) (key : Nat) (handle : shared_ptr DimensionObject) :
    DimensionTableIndex :=
  ((subscript m key).1).map (fun e => if e.1 = key then (e.1, handle) else e)

/-- The star schema: the vectors `dimensions` and `dimension_indexes` of
`evaluate_for_n_dimensions`. -/
structure StarSchema where
  dimensions : List DimensionTable
  dimension_indexes : List DimensionTableIndex
deriving DecidableEq, Repr

/-- The inner setup loop over `j`, for dimension `i`. -/
def setup_rows (i : Nat) : List Nat → StarSchema → Option StarSchema
  | [], s => some s
  | j :: rest, s =>
    match s.dimensions[i]? with
    | none => none
    | some table =>
      let dimensions := s.dimensions.set i (table ++ [⟨j, to_string j⟩])
      match dimensions[i]?, s.dimension_indexes[i]? with
      | some table1, some index =>
        match table1[j]? with
        | none => none
        | some row =>
          setup_rows i rest ⟨dimensions, s.dimension_indexes.set i (assign index j (some row))⟩
      | _, _ => none

/-- The outer setup loop over `i`, with `k` rows per dimension table. -/
def setup_tables (k : Nat) : List Nat → StarSchema → Option StarSchema
  | [], s => some s
  | i :: rest, s =>
    match setup_rows i (List.range k) ⟨s.dimensions ++ [[]], s.dimension_indexes ++ [[]]⟩ with
    | none => none
    | some s1 => setup_tables k rest s1

/-- Step (1.) of `evaluate_for_n_dimensions`: the star schema after the setup
loop for `n` dimensions with `k` rows each. -/
def setup (n k : Nat) : Option StarSchema :=
  setup_tables k (List.range n) ⟨[], []⟩

/-- The lambda `add_foreign_key_to_tuple`. -/
def add_foreign_key_to_tuple : Callback StarSchema Nat :=
  fun dimension_table_index tuple_index s =>
    match s.1.dimensions[dimension_table_index]? with
    | none => none
    | some table =>
      match table[tuple_index]? with
      | none => none
      | some row => some (s.1, s.2 ++ [row.id_])

/-- The lambda `add_pointer_to_tuple`. -/
def add_pointer_to_tuple : Callback StarSchema (shared_ptr DimensionObject) :=
  fun dimension_table_index tuple_index s =>
    match s.1.dimension_indexes[dimension_table_index]? with
    | none => none
    | some index =>
      some (⟨s.1.dimensions,
              s.1.dimension_indexes.set dimension_table_index (subscript index tuple_index).1⟩,
            s.2 ++ [(subscript index tuple_index).2])

/-- The access `*dimension_indexes[j][rel_object.relations_[j]]` of scan (3a.):
the indexes after the access and the row obtained. -/
def resolve_foreign_key (dimension_indexes : List DimensionTableIndex)
    (rel_object : FactTableObject Nat) (j : Nat) :
    Option (List DimensionTableIndex × DimensionObject) :=
  match rel_object.relations_[j]?, dimension_indexes[j]? with
  | some key, some index =>
    match (subscript index key).2 with
    | none => none
    | some row => some (dimension_indexes.set j (subscript index key).1, row)
  | _, _ => none

/-- The access `*rel_object.relations_[j]` of scan (3b.): the row obtained. -/
def resolve_pointer (rel_object : FactTableObject (shared_ptr DimensionObject)) (j : Nat) :
    Option DimensionObject :=
  match rel_object.relations_[j]? with
  | some (some row) => some row
  | _ => none

/-- The inner loop over `j` of scan (3a.) for one tuple of the fact table. -/
def scan_foreign_key_columns (rel_object : FactTableObject Nat) :
    List Nat → List DimensionTableIndex → Option (List DimensionTableIndex)
  | [], dimension_indexes => some dimension_indexes
  | j :: rest, dimension_indexes =>
    match resolve_foreign_key dimension_indexes rel_object j with
    | none => none
    | some r => scan_foreign_key_columns rel_object rest r.1

/-- Scan (3a.): the loop over the tuples of `fact_table_RM`. -/
def scan_foreign_keys (n : Nat) :
    List (FactTableObject Nat) → List DimensionTableIndex → Option (List DimensionTableIndex)
  | [], dimension_indexes => some dimension_indexes
  | rel_object :: rest, dimension_indexes =>
    match scan_foreign_key_columns rel_object (List.range n) dimension_indexes with
    | none => none
    | some d1 => scan_foreign_keys n rest d1

/-- The inner loop over `j` of scan (3b.) for one tuple of the fact table. -/
def scan_pointer_columns (rel_object : FactTableObject (shared_ptr DimensionObject)) :
    List Nat → Option Unit
  | [] => some ()
  | j :: rest =>
    match resolve_pointer rel_object j with
    | none => none
    | some _ => scan_pointer_columns rel_object rest

/-- Scan (3b.): the loop over the tuples of `fact_table_RTM`. -/
def scan_pointers (n : Nat) : List (FactTableObject (shared_ptr DimensionObject)) → Option Unit
  | [] => some ()
  | rel_object :: rest =>
    match scan_pointer_columns rel_object (List.range n) with
    | none => none
    | some _ => scan_pointers n rest

/-- What one repetition leaves behind: the star schema after it and the two
fact tables it built. -/
structure Repetition where
  schema : StarSchema
  fact_table_RM : List (FactTableObject Nat)
  fact_table_RTM : List (FactTableObject (shared_ptr DimensionObject))

/-- One pass through the body of the repetition loop of
`evaluate_for_n_dimensions`: steps (2a.), (2b.), (3a.) and (3b.); time
measurement and output are left out. -/
def repetition (k L n : Nat) (s : StarSchema) : Option Repetition :=
  match get_fact_table k L n s [] add_foreign_key_to_tuple with
  | none => none
  | some rm =>
    match get_fact_table k L n rm.captured [] add_pointer_to_tuple with
    | none => none
    | some rtm =>
      match scan_foreign_keys n rm.fact_table rtm.captured.dimension_indexes with
      | none => none
      | some dimension_indexes =>
        match scan_pointers n rtm.fact_table with
        | none => none
        | some _ =>
          some ⟨⟨rtm.captured.dimensions, dimension_indexes⟩, rm.fact_table, rtm.fact_table⟩

/-- The repetition loop, run `r` times; the result is the star schema after
the last repetition. -/
def repetitions (k L n : Nat) : Nat → StarSchema → Option StarSchema
  | 0, s => some s
  | r + 1, s =>
    match repetition k L n s with
    | none => none
    | some rep => repetitions k L n r rep.schema

/-- Function `evaluate_for_n_dimensions` without time measurement and output:
the star schema at the end of the function. -/
def evaluate_for_n_dimensions (k L n : Nat) : Option StarSchema :=
  match setup n k with
  | none => none
  | some s => repetitions k L n number_of_repetitions s

/-! ## Output and `main` -/

/-- The second field of a record of the output files: `foreign` or `pointer`. -/
inductive EncodingKind where
  | foreign
  | pointer
deriving DecidableEq, Repr

/-- A line of an output file: the header `exp,type,time`, or a record
`exp,type,time` with the dimension count, the kind and the measured time. The
time is a value of a type `τ` that the embedding does not look into. -/
inductive Line (τ : Type) where
  | header
  | record (exp : Nat) (type_ : EncodingKind) (time : τ)

/-- The two output files: `output` for the scans, `output_build` for the
builds. -/
structure Streams (τ : Type) where
  output : List (Line τ)
  output_build : List (Line τ)

/-- One pass through the body of the repetition loop with its output: the four
measurements `duration 0 .. duration 3` are written in the order of the
source. -/
def repetition_records {τ : Type} (duration : Nat → τ) (k L n : Nat) (s : StarSchema)
    (o : Streams τ) : Option (StarSchema × Streams τ) :=
  match get_fact_table k L n s [] add_foreign_key_to_tuple with
  | none => none
  | some rm =>
    let o1 : Streams τ :=
      ⟨o.output, o.output_build ++ [Line.record n EncodingKind.foreign (duration 0)]⟩
    match get_fact_table k L n rm.captured [] add_pointer_to_tuple with
    | none => none
    | some rtm =>
      let o2 : Streams τ :=
        ⟨o1.output, o1.output_build ++ [Line.record n EncodingKind.pointer (duration 1)]⟩
      match scan_foreign_keys n rm.fact_table rtm.captured.dimension_indexes with
      | none => none
      | some dimension_indexes =>
        let o3 : Streams τ :=
          ⟨o2.output ++ [Line.record n EncodingKind.foreign (duration 2)], o2.output_build⟩
        match scan_pointers n rtm.fact_table with
        | none => none
        | some _ =>
          some (⟨rtm.captured.dimensions, dimension_indexes⟩,
            ⟨o3.output ++ [Line.record n EncodingKind.pointer (duration 3)], o3.output_build⟩)

/-- The repetition loop over `i` with its output; `duration i m` is measurement
`m` of repetition `i`. -/
def repetitions_records {τ : Type} (duration : Nat → Nat → τ) (k L n : Nat) :
    List Nat → StarSchema × Streams τ → Option (StarSchema × Streams τ)
  | [], s => some s
  | i :: rest, s =>
    match repetition_records (duration i) k L n s.1 s.2 with
    | none => none
    | some s1 => repetitions_records duration k L n rest s1

/-- Function `evaluate_for_n_dimensions` with its output to the two files. -/
def evaluate_for_n_dimensions_records {τ : Type} (duration : Nat → Nat → τ) (k L n : Nat)
    (o : Streams τ) : Option (StarSchema × Streams τ) :=
  match setup n k with
  | none => none
  | some s => repetitions_records duration k L n (List.range number_of_repetitions) (s, o)

/-- What the loop of `main` does for a dimension count `i`: it skips it, or it
calls `evaluate_for_n_dimensions`. -/
inductive MainStep where
  | skipped (i : Nat)
  | evaluated (i : Nat)
deriving DecidableEq, Repr

/-- The main loop of `main`. The library function `pow` on doubles is a
parameter: `pow x i` is the double it returns for the arguments `x` and `i`, as
a rational number. `duration i` gives the measurements of the call for `i`. -/
def main_loop {τ : Type} (pow : Nat → Nat → ℚ) (duration : Nat → Nat → Nat → τ) :
    List Nat → List MainStep × Streams τ → Option (List MainStep × Streams τ)
  | [], s => some s
  | i :: rest, s =>
    if pow number_of_tuples_in_dimension_tables i < (number_of_tuples_in_fact_table : ℚ) then
      main_loop pow duration rest (s.1 ++ [MainStep.skipped i], s.2)
    else
      match evaluate_for_n_dimensions_records (duration i) number_of_tuples_in_dimension_tables
          number_of_tuples_in_fact_table i s.2 with
      | none => none
      | some r => main_loop pow duration rest (s.1 ++ [MainStep.evaluated i], r.2)

/-- Function `main`: the headers are written, then the loop runs over
`i = 2, ..., max_number_of_dimension_tables`. The result is the list of the
steps taken and the two output files. -/
def main {τ : Type} (pow : Nat → Nat → ℚ) (duration : Nat → Nat → Nat → τ) :
    Option (List MainStep × Streams τ) :=
  main_loop pow duration (List.range' 2 (max_number_of_dimension_tables - 1))
    ([], ⟨[Line.header], [Line.header]⟩)

/-- The records that one call of `evaluate_for_n_dimensions` writes to
`output_build`: per repetition a `foreign` and a `pointer` record. -/
def build_records {τ : Type} (duration : Nat → Nat → τ) (n : Nat) (is : List Nat) :
    List (Line τ) :=
  is.flatMap (fun i => [Line.record n EncodingKind.foreign (duration i 0),
    Line.record n EncodingKind.pointer (duration i 1)])

/-- The records that one call of `evaluate_for_n_dimensions` writes to
`output`: per repetition a `foreign` and a `pointer` record. -/
def scan_records {τ : Type} (duration : Nat → Nat → τ) (n : Nat) (is : List Nat) :
    List (Line τ) :=
  is.flatMap (fun i => [Line.record n EncodingKind.foreign (duration i 2),
    Line.record n EncodingKind.pointer (duration i 3)])

/-! ## Reference definitions, following the specification -/

/-- The cartesian product `{0..k-1}^n` in lexicographic order, column 0
slowest and column `n-1` fastest. -/
def lex_product (k : Nat) : Nat → List (List Nat)
  | 0 => [[]]
  | n + 1 => (List.range k).flatMap (fun j => (lex_product k n).map (fun t => j :: t))

/-- Row `j` of a dimension table: id `j`, info the decimal text of `j`. -/
def dimension_row (j : Nat) : DimensionObject := ⟨j, to_string j⟩

/-- A dimension table of `k` rows `0..k-1`. -/
def dimension_table (k : Nat) : DimensionTable := (List.range k).map dimension_row

/-- The index of a dimension table of `k` rows: key `j` is mapped to a handle
on a copy of row `j`. -/
def dimension_index (k : Nat) : DimensionTableIndex :=
  (List.range k).map (fun j => (j, some (dimension_row j)))

/-- The star schema of `n` dimensions with `k` rows each. -/
def star_schema (n k : Nat) : StarSchema :=
  ⟨List.replicate n (dimension_table k), List.replicate n (dimension_index k)⟩

/-- The encoding of the row indices `t` of the columns `d, d+1, ...`. -/
def encode_from {T : Type} (encode : Nat → Nat → T) : Nat → List Nat → List T
  | _, [] => []
  | d, j :: t => encode d j :: encode_from encode (d + 1) t

/-- The fact-table objects appended for the index tuples `tuples` of the
columns from `d` on, when `cnt` tuples were emitted before and the current
tuple is `p`: the cap `L` leaves room for `L - cnt` of them. -/
def emitted {T : Type} (encode : Nat → Nat → T) (L cnt d : Nat) (p : List T)
    (tuples : List (List Nat)) : List (FactTableObject T) :=
  (tuples.take (L - cnt)).map (fun t => ⟨p ++ encode_from encode d t⟩)

/-- An event stays in range: levels are at most `last`, row indices are below
`k`, and a call or an append happens only while the counter is below `L`. -/
def event_in_range (k L last : Nat) : Event → Prop
  | Event.enter d => d ≤ last
  | Event.call d j c => d ≤ last ∧ j < k ∧ c < L
  | Event.emit c => c < L

/-- The number of appends to the fact table among the events. -/
def emit_count : List Event → Nat
  | [] => 0
  | Event.emit _ :: es => emit_count es + 1
  | _ :: es => emit_count es

/-- The counter recorded with every call and every append is the number of
appends that happened before it, when `c` tuples were appended before the
first event. -/
def counters_agree : Nat → List Event → Prop
  | _, [] => True
  | c, Event.enter _ :: es => counters_agree c es
  | c, Event.call _ _ c' :: es => c' = c ∧ counters_agree c es
  | c, Event.emit c' :: es => c' = c ∧ counters_agree (c + 1) es

/-- The result `r` of a run at level `d` that started in the state `s` with the
events `ev`: the run returns, the invariant `Inv` of the captured state holds
again, the current tuple is as before, the tuples appended to the fact table
have `last - d + 1` columns more than the current tuple, and the events added
stay in range. -/
def run_in_range {σ T : Type} (Inv : σ → Prop) (k L last d : Nat) (s : Enumeration σ T)
    (ev : List Event) (r : Option (Enumeration σ T × List Event)) : Prop :=
  ∃ s' ev', r = some (s', ev ++ ev') ∧ Inv s'.captured ∧ s'.current_tuple = s.current_tuple
    ∧ (∃ new, s'.fact_table = s.fact_table ++ new
        ∧ ∀ o ∈ new, o.relations_.length = s.current_tuple.length + (last - d) + 1)
    ∧ ∀ e ∈ ev', event_in_range k L last e

/-! ## Lemmas on the enumeration -/

theorem pop_back_concat {T : Type} (p : List T) (x : T) : pop_back (p ++ [x]) = some p := by
  cases h : p ++ [x] with
  | nil => simp at h
  | cons y ys => simp only [pop_back]; rw [← h, List.dropLast_concat]

theorem encode_from_row_index (d : Nat) (t : List Nat) :
    encode_from (fun _ j => j) d t = t := by
  induction t generalizing d with
  | nil => rfl
  | cons j t ih => simp [encode_from, ih]

theorem length_encode_from {T : Type} (encode : Nat → Nat → T) (d : Nat) (t : List Nat) :
    (encode_from encode d t).length = t.length := by
  induction t generalizing d with
  | nil => rfl
  | cons j t ih => simp [encode_from, ih]

theorem length_emitted {T : Type} (encode : Nat → Nat → T) (L cnt d : Nat) (p : List T)
    (tuples : List (List Nat)) :
    (emitted encode L cnt d p tuples).length = min (L - cnt) tuples.length := by
  simp [emitted]

theorem emitted_nil {T : Type} (encode : Nat → Nat → T) (L cnt d : Nat) (p : List T) :
    emitted encode L cnt d p [] = [] := by
  simp [emitted]

theorem emitted_of_cap {T : Type} (encode : Nat → Nat → T) (L cnt d : Nat) (p : List T)
    (tuples : List (List Nat)) (h : L ≤ cnt) : emitted encode L cnt d p tuples = [] := by
  simp [emitted, Nat.sub_eq_zero_of_le h]

theorem emitted_append {T : Type} (encode : Nat → Nat → T) (L cnt d : Nat) (p : List T)
    (a b : List (List Nat)) :
    emitted encode L cnt d p (a ++ b)
      = emitted encode L cnt d p a
        ++ emitted encode L (cnt + (emitted encode L cnt d p a).length) d p b := by
  simp only [emitted, List.take_append_eq_append_take, List.map_append, List.length_map,
    List.length_take]
  congr 3
  omega

theorem emitted_cons_column {T : Type} (encode : Nat → Nat → T) (L cnt d : Nat) (p : List T)
    (j : Nat) (tuples : List (List Nat)) :
    emitted encode L cnt d p (tuples.map (fun t => j :: t))
      = emitted encode L cnt (d + 1) (p ++ [encode d j]) tuples := by
  simp only [emitted, ← List.map_take, List.map_map]
  apply List.map_congr_left
  intro t _
  simp [encode_from]

/-- The loop of one level, for a callback that appends `encode d j` and leaves
its captured state `c` as it is, given the effect of the recursive call. -/
theorem for_tuple_index_emitted {σ T : Type} (k L : Nat) (add : Callback σ T)
    (encode : Nat → Nat → T) (last d : Nat) (c : σ)
    (rec_function : Nat → Enumeration σ T → Option (Enumeration σ T))
    (below : List (List Nat))
    (hadd : ∀ j t, j < k → add d j (c, t) = some (c, t ++ [encode d j]))
    (hrec : d < last → ∀ p ft cnt, rec_function (d + 1) ⟨c, p, ft, cnt⟩
      = some ⟨c, p, ft ++ emitted encode L cnt (d + 1) p below,
          cnt + (emitted encode L cnt (d + 1) p below).length⟩)
    (hlast : ¬ d < last → below = [[]]) :
    ∀ (js : List Nat), (∀ j ∈ js, j < k) → ∀ p ft cnt,
      for_tuple_index L add last d rec_function js ⟨c, p, ft, cnt⟩
        = some ⟨c, p,
            ft ++ emitted encode L cnt d p (js.flatMap (fun j => below.map (fun t => j :: t))),
            cnt + (emitted encode L cnt d p
              (js.flatMap (fun j => below.map (fun t => j :: t)))).length⟩ := by
  intro js
  induction js with
  | nil => intro _ p ft cnt; simp [for_tuple_index, emitted_nil]
  | cons j rest ih =>
    intro hjs p ft cnt
    have hj : j < k := hjs j (List.mem_cons_self _ _)
    have hrest : ∀ i ∈ rest, i < k := fun i hi => hjs i (List.mem_cons_of_mem _ hi)
    by_cases hcap : L ≤ cnt
    · simp [for_tuple_index, hcap, emitted_of_cap]
    · rw [List.flatMap_cons, emitted_append, emitted_cons_column]
      by_cases hd : d < last
      · simp only [for_tuple_index, hcap, if_false, hadd j p hj, hd, if_true,
          hrec hd, pop_back_concat]
        rw [ih hrest]
        simp [List.append_assoc, Nat.add_assoc]
      · have hb := hlast hd
        subst hb
        have hone : emitted encode L cnt (d + 1) (p ++ [encode d j]) [[]]
            = [⟨p ++ [encode d j]⟩] := by
          have : L - cnt = (L - cnt - 1) + 1 := by omega
          simp only [emitted]
          rw [this]
          simp [encode_from]
        simp only [for_tuple_index, hcap, if_false, hadd j p hj, hd, pop_back_concat]
        rw [ih hrest, hone]
        simp [List.append_assoc, Nat.add_assoc, Nat.add_comm]

/-- The recursive lambda at level `d` with `m` levels below it, for a callback
that appends `encode i j` and leaves its captured state `c` as it is. -/
theorem rec_pointer_emitted {σ T : Type} (k L : Nat) (add : Callback σ T)
    (encode : Nat → Nat → T) (last : Nat) (c : σ)
    (hadd : ∀ i j t, i ≤ last → j < k → add i j (c, t) = some (c, t ++ [encode i j])) :
    ∀ (m d : Nat), d + m = last → ∀ p ft cnt,
      rec_pointer k L add last (m + 1) d ⟨c, p, ft, cnt⟩
        = some ⟨c, p, ft ++ emitted encode L cnt d p (lex_product k (m + 1)),
            cnt + (emitted encode L cnt d p (lex_product k (m + 1))).length⟩ := by
  intro m
  induction m with
  | zero =>
    intro d hd p ft cnt
    rw [rec_pointer, lex_product]
    exact for_tuple_index_emitted k L add encode last d c _ (lex_product k 0)
      (fun j t hj => hadd d j t (by omega) hj) (fun h => by omega) (fun _ => rfl)
      (List.range k) (fun j hj => List.mem_range.mp hj) p ft cnt
  | succ m ih =>
    intro d hd p ft cnt
    rw [rec_pointer, lex_product]
    exact for_tuple_index_emitted k L add encode last d c _ (lex_product k (m + 1))
      (fun j t hj => hadd d j t (by omega) hj)
      (fun _ p ft cnt => ih (d + 1) (by omega) p ft cnt) (fun h => absurd (by omega) h)
      (List.range k) (fun j hj => List.mem_range.mp hj) p ft cnt

/-! ## Lemmas on the lexicographic product -/

theorem length_flatMap_cons_column (js : List Nat) (below : List (List Nat)) :
    (js.flatMap (fun j => below.map (fun t => j :: t))).length = js.length * below.length := by
  induction js with
  | nil => simp
  | cons j rest ih => simp [List.flatMap_cons, ih, Nat.succ_mul, Nat.add_comm]

theorem length_lex_product (k n : Nat) : (lex_product k n).length = k ^ n := by
  induction n with
  | zero => simp [lex_product]
  | succ n ih =>
    rw [lex_product, length_flatMap_cons_column, List.length_range, ih, Nat.pow_succ,
      Nat.mul_comm]

theorem mem_lex_product (k n : Nat) (t : List Nat) :
    t ∈ lex_product k n ↔ t.length = n ∧ ∀ x ∈ t, x < k := by
  induction n generalizing t with
  | zero =>
    simp only [lex_product, List.mem_singleton]
    constructor
    · rintro rfl; simp
    · rintro ⟨h, _⟩; exact List.length_eq_zero.mp h
  | succ n ih =>
    simp only [lex_product, List.mem_flatMap, List.mem_range, List.mem_map]
    constructor
    · rintro ⟨j, hj, u, hu, rfl⟩
      obtain ⟨hlen, hlt⟩ := (ih u).mp hu
      refine ⟨by simp [hlen], ?_⟩
      intro x hx
      rcases List.mem_cons.mp hx with rfl | hx
      · exact hj
      · exact hlt x hx
    · rintro ⟨hlen, hlt⟩
      cases t with
      | nil => simp at hlen
      | cons j u =>
        refine ⟨j, hlt j (List.mem_cons_self _ _), u, (ih u).mpr ⟨?_, ?_⟩, rfl⟩
        · simpa using hlen
        · exact fun x hx => hlt x (List.mem_cons_of_mem _ hx)

theorem pairwise_lex_product (k n : Nat) :
    (lex_product k n).Pairwise (List.Lex (fun a b : Nat => a < b)) := by
  induction n with
  | zero => simp [lex_product]
  | succ n ih =>
    rw [lex_product, List.pairwise_flatMap]
    refine ⟨fun j _ => ?_, ?_⟩
    · rw [List.pairwise_map]
      exact ih.imp (fun h => List.Lex.cons h)
    · refine (List.pairwise_lt_range k).imp ?_
      intro a b hab x hx y hy
      obtain ⟨u, _, rfl⟩ := List.mem_map.mp hx
      obtain ⟨v, _, rfl⟩ := List.mem_map.mp hy
      exact List.Lex.rel hab

theorem last_dimension_table_index_succ (n : Nat) (hn : 1 ≤ n) (hsz : n < size_t_modulus) :
    last_dimension_table_index n + 1 = n := by
  unfold last_dimension_table_index
  unfold size_t_modulus at *
  omega

theorem last_dimension_table_index_zero :
    last_dimension_table_index 0 + 1 = size_t_modulus := by
  unfold last_dimension_table_index size_t_modulus
  omega

/-- Closed form of `get_fact_table` for a callback that appends `encode i j`
and leaves its captured state `c` as it is. -/
theorem get_fact_table_emitted {σ T : Type} (k L n : Nat) (add : Callback σ T)
    (encode : Nat → Nat → T) (c : σ) (p : List T)
    (hadd : ∀ i j t, i ≤ last_dimension_table_index n → j < k →
      add i j (c, t) = some (c, t ++ [encode i j])) :
    get_fact_table k L n c p add
      = some ⟨c, p,
          emitted encode L 0 0 p (lex_product k (last_dimension_table_index n + 1)),
          (emitted encode L 0 0 p (lex_product k (last_dimension_table_index n + 1))).length⟩ := by
  unfold get_fact_table
  rw [rec_pointer_emitted k L add encode _ c hadd _ 0 (Nat.zero_add _) p [] 0]
  simp

theorem tuples_of_row_index (k L n : Nat) :
    tuples_of (get_fact_table k L n () [] push_row_index)
      = some ((lex_product k (last_dimension_table_index n + 1)).take L) := by
  rw [get_fact_table_emitted k L n push_row_index (fun _ j => j) () []
    (fun i j t _ _ => rfl)]
  simp [tuples_of, emitted, encode_from_row_index, Function.comp_def]

theorem not_lex_self (l : List Nat) : ¬ List.Lex (fun a b : Nat => a < b) l l := by
  induction l with
  | nil => intro h; cases h
  | cons a l ih =>
    intro h
    cases h with
    | cons h => exact ih h
    | rel h => exact Nat.lt_irrefl _ h

theorem nodup_lex_product (k n : Nat) : (lex_product k n).Nodup := by
  unfold List.Nodup
  refine (pairwise_lex_product k n).imp ?_
  intro a b h e
  subst e
  exact not_lex_self a h

theorem length_get_fact_table {T : Type} (k L n : Nat) (encode : Nat → Nat → T) :
    (get_fact_table k L n () [] (push_encoded encode)).map (fun s => s.fact_table.length)
      = some (min L (k ^ (last_dimension_table_index n + 1))) := by
  rw [get_fact_table_emitted k L n (push_encoded encode) encode () []
    (fun i j t _ _ => rfl)]
  simp [length_emitted, length_lex_product]

/-! ## Two runs side by side -/

theorem encode_from_concat {T : Type} (encode : Nat → Nat → T) (d : Nat) (t : List Nat)
    (j : Nat) :
    encode_from encode d (t ++ [j]) = encode_from encode d t ++ [encode (d + t.length) j] := by
  induction t generalizing d with
  | nil => simp [encode_from]
  | cons i t ih =>
    have e : d + (t.length + 1) = d + 1 + t.length := by omega
    rw [List.cons_append, encode_from, encode_from, ih, List.length_cons, e, List.cons_append]

/-- The loop of one level run with two callbacks. The tuples of the first run
are the images under `g` of the tuples of the second run, and the captured
states are related by `Rc`. -/
theorem for_tuple_index_sim {σ₁ σ₂ T₁ T₂ : Type} (L : Nat) (add₁ : Callback σ₁ T₁)
    (add₂ : Callback σ₂ T₂) (Rc : σ₁ → σ₂ → Prop) (g : List T₂ → List T₁) (last d : Nat)
    (rec₁ : Nat → Enumeration σ₁ T₁ → Option (Enumeration σ₁ T₁))
    (rec₂ : Nat → Enumeration σ₂ T₂ → Option (Enumeration σ₂ T₂))
    (hadd : ∀ j c₁ c₂ t, Rc c₁ c₂ → t.length = d → ∃ c₁' c₂' x₁ x₂,
      add₁ d j (c₁, g t) = some (c₁', g t ++ [x₁]) ∧ add₂ d j (c₂, t) = some (c₂', t ++ [x₂])
        ∧ g (t ++ [x₂]) = g t ++ [x₁] ∧ Rc c₁' c₂')
    (hrec : d < last → ∀ c₁ c₂ t ft cnt, Rc c₁ c₂ → t.length = d + 1 → ∃ c₁' c₂' ft' cnt',
      rec₁ (d + 1) ⟨c₁, g t, ft.map (fun o => ⟨g o.relations_⟩), cnt⟩
          = some ⟨c₁', g t, ft'.map (fun o => ⟨g o.relations_⟩), cnt'⟩
        ∧ rec₂ (d + 1) ⟨c₂, t, ft, cnt⟩ = some ⟨c₂', t, ft', cnt'⟩ ∧ Rc c₁' c₂') :
    ∀ (js : List Nat) c₁ c₂ t ft cnt, Rc c₁ c₂ → t.length = d → ∃ c₁' c₂' ft' cnt',
      for_tuple_index L add₁ last d rec₁ js ⟨c₁, g t, ft.map (fun o => ⟨g o.relations_⟩), cnt⟩
          = some ⟨c₁', g t, ft'.map (fun o => ⟨g o.relations_⟩), cnt'⟩
        ∧ for_tuple_index L add₂ last d rec₂ js ⟨c₂, t, ft, cnt⟩ = some ⟨c₂', t, ft', cnt'⟩
        ∧ Rc c₁' c₂' := by
  intro js
  induction js with
  | nil => intro c₁ c₂ t ft cnt hc _; exact ⟨c₁, c₂, ft, cnt, rfl, rfl, hc⟩
  | cons j rest ih =>
    intro c₁ c₂ t ft cnt hc ht
    by_cases hcap : L ≤ cnt
    · exact ⟨c₁, c₂, ft, cnt, by simp [for_tuple_index, hcap], by simp [for_tuple_index, hcap],
        hc⟩
    · obtain ⟨a₁, a₂, x₁, x₂, h₁, h₂, hg, ha⟩ := hadd j c₁ c₂ t hc ht
      by_cases hd : d < last
      · obtain ⟨b₁, b₂, ft', cnt', r₁, r₂, hb⟩ :=
          hrec hd a₁ a₂ (t ++ [x₂]) ft cnt ha (by simp [ht])
        obtain ⟨e₁, e₂, ft'', cnt'', q₁, q₂, he⟩ := ih b₁ b₂ t ft' cnt' hb ht
        rw [hg] at r₁
        refine ⟨e₁, e₂, ft'', cnt'', ?_, ?_, he⟩
        · simp only [for_tuple_index, hcap, if_false, h₁, hd, if_true, r₁, pop_back_concat, q₁]
        · simp only [for_tuple_index, hcap, if_false, h₂, hd, if_true, r₂, pop_back_concat, q₂]
      · obtain ⟨e₁, e₂, ft'', cnt'', q₁, q₂, he⟩ :=
          ih a₁ a₂ t (ft ++ [⟨t ++ [x₂]⟩]) (cnt + 1) ha ht
        rw [List.map_append, List.map_singleton, hg] at q₁
        refine ⟨e₁, e₂, ft'', cnt'', ?_, ?_, he⟩
        · simp only [for_tuple_index, hcap, if_false, h₁, hd, pop_back_concat, q₁]
        · simp only [for_tuple_index, hcap, if_false, h₂, hd, pop_back_concat, q₂]

/-- The recursive lambda run with two callbacks, see `for_tuple_index_sim`. -/
theorem rec_pointer_sim {σ₁ σ₂ T₁ T₂ : Type} (k L : Nat) (add₁ : Callback σ₁ T₁)
    (add₂ : Callback σ₂ T₂) (Rc : σ₁ → σ₂ → Prop) (g : List T₂ → List T₁) (last : Nat)
    (hadd : ∀ d j c₁ c₂ t, Rc c₁ c₂ → t.length = d → ∃ c₁' c₂' x₁ x₂,
      add₁ d j (c₁, g t) = some (c₁', g t ++ [x₁]) ∧ add₂ d j (c₂, t) = some (c₂', t ++ [x₂])
        ∧ g (t ++ [x₂]) = g t ++ [x₁] ∧ Rc c₁' c₂') :
    ∀ (m d : Nat) c₁ c₂ t ft cnt, d + m = last → Rc c₁ c₂ → t.length = d →
      ∃ c₁' c₂' ft' cnt',
        rec_pointer k L add₁ last (m + 1) d ⟨c₁, g t, ft.map (fun o => ⟨g o.relations_⟩), cnt⟩
            = some ⟨c₁', g t, ft'.map (fun o => ⟨g o.relations_⟩), cnt'⟩
          ∧ rec_pointer k L add₂ last (m + 1) d ⟨c₂, t, ft, cnt⟩ = some ⟨c₂', t, ft', cnt'⟩
          ∧ Rc c₁' c₂' := by
  intro m
  induction m with
  | zero =>
    intro d c₁ c₂ t ft cnt hd hc ht
    rw [rec_pointer, rec_pointer]
    exact for_tuple_index_sim L add₁ add₂ Rc g last d _ _ (hadd d) (fun h => by omega)
      (List.range k) c₁ c₂ t ft cnt hc ht
  | succ m ih =>
    intro d c₁ c₂ t ft cnt hd hc ht
    rw [rec_pointer, rec_pointer]
    exact for_tuple_index_sim L add₁ add₂ Rc g last d _ _ (hadd d)
      (fun _ c₁ c₂ t ft cnt hc ht => ih (d + 1) c₁ c₂ t ft cnt (by omega) hc ht)
      (List.range k) c₁ c₂ t ft cnt hc ht

/-- Two runs of `get_fact_table` from an empty tuple, see `for_tuple_index_sim`. -/
theorem get_fact_table_sim {σ₁ σ₂ T₁ T₂ : Type} (k L n : Nat) (add₁ : Callback σ₁ T₁)
    (add₂ : Callback σ₂ T₂) (Rc : σ₁ → σ₂ → Prop) (g : List T₂ → List T₁) (hnil : g [] = [])
    (hadd : ∀ d j c₁ c₂ t, Rc c₁ c₂ → t.length = d → ∃ c₁' c₂' x₁ x₂,
      add₁ d j (c₁, g t) = some (c₁', g t ++ [x₁]) ∧ add₂ d j (c₂, t) = some (c₂', t ++ [x₂])
        ∧ g (t ++ [x₂]) = g t ++ [x₁] ∧ Rc c₁' c₂')
    (c₁ : σ₁) (c₂ : σ₂) (hc : Rc c₁ c₂) :
    ∃ c₁' c₂' ft cnt,
      get_fact_table k L n c₁ [] add₁ = some ⟨c₁', [], ft.map (fun o => ⟨g o.relations_⟩), cnt⟩
        ∧ get_fact_table k L n c₂ [] add₂ = some ⟨c₂', [], ft, cnt⟩ ∧ Rc c₁' c₂' := by
  have h := rec_pointer_sim k L add₁ add₂ Rc g (last_dimension_table_index n) hadd
    (last_dimension_table_index n) 0 c₁ c₂ [] [] 0 (Nat.zero_add _) hc rfl
  rw [hnil] at h
  exact h

theorem map_id_relations {T : Type} (ft : List (FactTableObject T)) :
    ft.map (fun o => (⟨id o.relations_⟩ : FactTableObject T)) = ft := by
  induction ft with
  | nil => rfl
  | cons o ft ih => rw [List.map_cons, ih]; rfl

/-- Writing the log does not change the fact table: the run with the logging
callback and the run with the plain callback build the same table. -/
theorem get_fact_table_logged {T : Type} (k L n : Nat) (encode : Nat → Nat → T) :
    ∃ log ft cnt,
      get_fact_table k L n [] [] (push_logged encode) = some ⟨log, [], ft, cnt⟩
        ∧ get_fact_table k L n () [] (push_encoded encode) = some ⟨(), [], ft, cnt⟩ := by
  obtain ⟨log, u, ft, cnt, h₁, h₂, _⟩ :=
    get_fact_table_sim k L n (push_logged encode) (push_encoded encode) (fun _ _ => True) id rfl
      (fun d j c₁ c₂ t _ _ =>
        ⟨c₁ ++ [(d, j)], c₂, encode d j, encode d j, rfl, rfl, rfl, trivial⟩)
      [] () trivial
  rw [map_id_relations] at h₁
  exact ⟨log, ft, cnt, h₁, h₂⟩

/-! ## Lemmas on the star schema -/

theorem dimension_table_succ (a : Nat) :
    dimension_table (a + 1) = dimension_table a ++ [dimension_row a] := by
  simp [dimension_table, List.range_succ]

theorem dimension_index_succ (a : Nat) :
    dimension_index (a + 1) = dimension_index a ++ [(a, some (dimension_row a))] := by
  simp [dimension_index, List.range_succ]

theorem length_dimension_table (k : Nat) : (dimension_table k).length = k := by
  simp [dimension_table]

theorem getElem?_dimension_table (k j : Nat) (h : j < k) :
    (dimension_table k)[j]? = some (dimension_row j) := by
  simp [dimension_table, List.getElem?_range h]

theorem lookup_keyed (f : Nat → shared_ptr DimensionObject) (js : List Nat) (a : Nat) :
    (js.map (fun j => (j, f j))).lookup a = if a ∈ js then some (f a) else none := by
  induction js with
  | nil => simp
  | cons j js ih =>
    rw [List.map_cons, List.lookup_cons, ih]
    by_cases h : a = j
    · subst h; simp
    · have hb : (a == j) = false := by simpa using h
      simp [hb, h]

theorem lookup_dimension_index (k j : Nat) (h : j < k) :
    (dimension_index k).lookup j = some (some (dimension_row j)) := by
  unfold dimension_index
  rw [lookup_keyed (fun j => some (dimension_row j))]
  simp [h]

theorem lookup_dimension_index_none (k j : Nat) (h : k ≤ j) :
    (dimension_index k).lookup j = none := by
  unfold dimension_index
  rw [lookup_keyed (fun j => some (dimension_row j))]
  simp [h]

theorem subscript_dimension_index (k j : Nat) (h : j < k) :
    subscript (dimension_index k) j = (dimension_index k, some (dimension_row j)) := by
  simp [subscript, lookup_dimension_index k j h]

theorem assign_dimension_index (a : Nat) :
    assign (dimension_index a) a (some (dimension_row a)) = dimension_index (a + 1) := by
  have hmap : (dimension_index a).map
      (fun e => if e.1 = a then (e.1, some (dimension_row a)) else e) = dimension_index a := by
    unfold dimension_index
    rw [List.map_map]
    apply List.map_congr_left
    intro j hj
    have : j ≠ a := Nat.ne_of_lt (List.mem_range.mp hj)
    simp [this]
  simp [assign, subscript, lookup_dimension_index_none a a (Nat.le_refl a), hmap,
    dimension_index_succ]

theorem set_replicate_self {α : Type} (n d : Nat) (x : α) :
    (List.replicate n x).set d x = List.replicate n x := by
  apply List.ext_getElem?
  intro i
  rw [List.getElem?_set]
  by_cases h : d = i
  · subst h
    by_cases hd : d < n
    · simp [hd]
    · simp [hd, List.getElem?_replicate]
  · simp [h]

theorem setup_rows_range (i : Nat) (pre : List DimensionTable) (pre' : List DimensionTableIndex)
    (hpre : pre.length = i) (hpre' : pre'.length = i) :
    ∀ (b a : Nat), setup_rows i (List.range' a b)
        ⟨pre ++ [dimension_table a], pre' ++ [dimension_index a]⟩
      = some ⟨pre ++ [dimension_table (a + b)], pre' ++ [dimension_index (a + b)]⟩ := by
  intro b
  induction b with
  | zero => intro a; rfl
  | succ b ih =>
    intro a
    have h1 : (pre ++ [dimension_table a])[i]? = some (dimension_table a) := by
      rw [← hpre]; exact List.getElem?_concat_length _ _
    have h2 : (pre ++ [dimension_table a]).set i (dimension_table a ++ [⟨a, to_string a⟩])
        = pre ++ [dimension_table (a + 1)] := by
      rw [List.set_append_right _ _ (Nat.le_of_eq hpre), hpre, Nat.sub_self,
        dimension_table_succ]
      rfl
    have h3 : (pre ++ [dimension_table (a + 1)])[i]? = some (dimension_table (a + 1)) := by
      rw [← hpre]; exact List.getElem?_concat_length _ _
    have h4 : (pre' ++ [dimension_index a])[i]? = some (dimension_index a) := by
      rw [← hpre']; exact List.getElem?_concat_length _ _
    have h5 : (dimension_table (a + 1))[a]? = some (dimension_row a) :=
      getElem?_dimension_table (a + 1) a (Nat.lt_succ_self a)
    have h6 : (pre' ++ [dimension_index a]).set i (assign (dimension_index a) a
        (some (dimension_row a))) = pre' ++ [dimension_index (a + 1)] := by
      rw [List.set_append_right _ _ (Nat.le_of_eq hpre'), hpre', Nat.sub_self,
        assign_dimension_index]
      rfl
    rw [List.range'_succ]
    simp only [setup_rows, h1, h2, h3, h4, h5, h6]
    rw [ih (a + 1)]
    have e : a + 1 + b = a + (b + 1) := by omega
    rw [e]

theorem setup_tables_range (k : Nat) :
    ∀ (b a : Nat), setup_tables k (List.range' a b) (star_schema a k)
      = some (star_schema (a + b) k) := by
  intro b
  induction b with
  | zero => intro a; rfl
  | succ b ih =>
    intro a
    rw [List.range'_succ]
    simp only [setup_tables, star_schema]
    have h := setup_rows_range a (List.replicate a (dimension_table k))
      (List.replicate a (dimension_index k)) (by simp) (by simp) k 0
    rw [List.range_eq_range']
    have e0 : dimension_table 0 = [] := rfl
    have e1 : dimension_index 0 = [] := rfl
    rw [e0, e1, Nat.zero_add] at h
    rw [h]
    have e : a + (b + 1) = a + 1 + b := by omega
    have h' := ih (a + 1)
    simp only [star_schema, List.replicate_succ'] at h'
    simp only [e]
    exact h'

theorem setup_eq (n k : Nat) : setup n k = some (star_schema n k) := by
  have h := setup_tables_range k n 0
  rw [Nat.zero_add] at h
  unfold setup
  rw [List.range_eq_range']
  exact h

/-! ## Lemmas on the callbacks and the scans over the star schema -/

theorem add_foreign_key_to_tuple_star_schema (n k d j : Nat) (t : List Nat) (hd : d < n)
    (hj : j < k) :
    add_foreign_key_to_tuple d j (star_schema n k, t) = some (star_schema n k, t ++ [j]) := by
  simp [add_foreign_key_to_tuple, star_schema, List.getElem?_replicate_of_lt hd,
    getElem?_dimension_table k j hj, dimension_row]

theorem add_pointer_to_tuple_star_schema (n k d j : Nat)
    (t : List (shared_ptr DimensionObject)) (hd : d < n) (hj : j < k) :
    add_pointer_to_tuple d j (star_schema n k, t)
      = some (star_schema n k, t ++ [some (dimension_row j)]) := by
  simp [add_pointer_to_tuple, star_schema, List.getElem?_replicate_of_lt hd,
    subscript_dimension_index k j hj, set_replicate_self]

theorem getElem?_encode_from {T : Type} (encode : Nat → Nat → T) (d : Nat) (u : List Nat)
    (j : Nat) : (encode_from encode d u)[j]? = u[j]?.map (encode (d + j)) := by
  induction u generalizing d j with
  | nil => simp [encode_from]
  | cons a u ih =>
    cases j with
    | zero => simp [encode_from]
    | succ j =>
      have e : d + 1 + j = d + (j + 1) := by omega
      simp [encode_from, ih, e]

theorem mem_emitted {T : Type} (encode : Nat → Nat → T) (L cnt d : Nat) (p : List T)
    (tuples : List (List Nat)) (o : FactTableObject T)
    (h : o ∈ emitted encode L cnt d p tuples) :
    ∃ u ∈ tuples, o = ⟨p ++ encode_from encode d u⟩ := by
  obtain ⟨u, hu, rfl⟩ := List.mem_map.mp h
  exact ⟨u, List.mem_of_mem_take hu, rfl⟩

theorem getElem?_emitted {T : Type} (encode : Nat → Nat → T) (L cnt d : Nat) (p : List T)
    (tuples : List (List Nat)) (t : Nat) :
    (emitted encode L cnt d p tuples)[t]?
      = ((tuples.take (L - cnt))[t]?).map (fun u => ⟨p ++ encode_from encode d u⟩) := by
  unfold emitted
  rw [List.getElem?_map]

/-- The fact table `fact_table_RM` built over the star schema. -/
theorem get_fact_table_foreign_key (n k L : Nat) (hn : 1 ≤ n) (hsz : n < size_t_modulus) :
    get_fact_table k L n (star_schema n k) [] add_foreign_key_to_tuple
      = some ⟨star_schema n k, [], emitted (fun _ j => j) L 0 0 [] (lex_product k n),
          (emitted (fun _ j => j) L 0 0 [] (lex_product k n)).length⟩ := by
  have hlast := last_dimension_table_index_succ n hn hsz
  rw [get_fact_table_emitted k L n add_foreign_key_to_tuple (fun _ j => j) (star_schema n k) []
    (fun i j t hi hj => add_foreign_key_to_tuple_star_schema n k i j t (by omega) hj), hlast]

/-- The fact table `fact_table_RTM` built over the star schema. -/
theorem get_fact_table_pointer (n k L : Nat) (hn : 1 ≤ n) (hsz : n < size_t_modulus) :
    get_fact_table k L n (star_schema n k) [] add_pointer_to_tuple
      = some ⟨star_schema n k, [],
          emitted (fun _ j => some (dimension_row j)) L 0 0 [] (lex_product k n),
          (emitted (fun _ j => some (dimension_row j)) L 0 0 [] (lex_product k n)).length⟩ := by
  have hlast := last_dimension_table_index_succ n hn hsz
  rw [get_fact_table_emitted k L n add_pointer_to_tuple (fun _ j => some (dimension_row j))
    (star_schema n k) []
    (fun i j t hi hj => add_pointer_to_tuple_star_schema n k i j t (by omega) hj), hlast]

theorem getElem?_of_mem_lex_product (k n : Nat) (u : List Nat) (hu : u ∈ lex_product k n)
    (j : Nat) (hj : j < n) : ∃ a, u[j]? = some a ∧ a < k := by
  obtain ⟨hlen, hlt⟩ := (mem_lex_product k n u).mp hu
  have hj' : j < u.length := by omega
  exact ⟨u[j], List.getElem?_eq_getElem hj', hlt _ (List.getElem_mem hj')⟩

theorem resolve_foreign_key_star_schema (n k : Nat) (u : List Nat) (j a : Nat) (hj : j < n)
    (hu : u[j]? = some a) (ha : a < k) :
    resolve_foreign_key (List.replicate n (dimension_index k)) ⟨u⟩ j
      = some (List.replicate n (dimension_index k), dimension_row a) := by
  simp [resolve_foreign_key, hu, List.getElem?_replicate_of_lt hj,
    subscript_dimension_index k a ha, set_replicate_self]

theorem resolve_pointer_encoded (u : List Nat) (j a : Nat) (hu : u[j]? = some a) :
    resolve_pointer ⟨encode_from (fun _ j => some (dimension_row j)) 0 u⟩ j
      = some (dimension_row a) := by
  simp [resolve_pointer, getElem?_encode_from, hu]

theorem scan_foreign_key_columns_star_schema (n k : Nat) (u : List Nat)
    (hu : u ∈ lex_product k n) :
    ∀ (js : List Nat), (∀ j ∈ js, j < n) →
      scan_foreign_key_columns ⟨u⟩ js (List.replicate n (dimension_index k))
        = some (List.replicate n (dimension_index k)) := by
  intro js
  induction js with
  | nil => intro _; rfl
  | cons j rest ih =>
    intro h
    obtain ⟨a, ha, hak⟩ := getElem?_of_mem_lex_product k n u hu j (h j (List.mem_cons_self _ _))
    simp only [scan_foreign_key_columns,
      resolve_foreign_key_star_schema n k u j a (h j (List.mem_cons_self _ _)) ha hak]
    exact ih (fun i hi => h i (List.mem_cons_of_mem _ hi))

theorem scan_foreign_keys_star_schema (n k : Nat) :
    ∀ (ft : List (FactTableObject Nat)), (∀ o ∈ ft, o.relations_ ∈ lex_product k n) →
      scan_foreign_keys n ft (List.replicate n (dimension_index k))
        = some (List.replicate n (dimension_index k)) := by
  intro ft
  induction ft with
  | nil => intro _; rfl
  | cons o rest ih =>
    intro h
    have ho := h o (List.mem_cons_self _ _)
    simp only [scan_foreign_keys]
    rw [show o = ⟨o.relations_⟩ from rfl,
      scan_foreign_key_columns_star_schema n k o.relations_ ho (List.range n)
        (fun j hj => List.mem_range.mp hj)]
    exact ih (fun i hi => h i (List.mem_cons_of_mem _ hi))

theorem scan_pointer_columns_encoded (k n : Nat) (u : List Nat) (hu : u ∈ lex_product k n) :
    ∀ (js : List Nat), (∀ j ∈ js, j < n) →
      scan_pointer_columns ⟨encode_from (fun _ j => some (dimension_row j)) 0 u⟩ js
        = some () := by
  intro js
  induction js with
  | nil => intro _; rfl
  | cons j rest ih =>
    intro h
    obtain ⟨a, ha, _⟩ := getElem?_of_mem_lex_product k n u hu j (h j (List.mem_cons_self _ _))
    simp only [scan_pointer_columns, resolve_pointer_encoded u j a ha]
    exact ih (fun i hi => h i (List.mem_cons_of_mem _ hi))

theorem scan_pointers_encoded (k n : Nat) :
    ∀ (ft : List (FactTableObject (shared_ptr DimensionObject))),
      (∀ o ∈ ft, ∃ u ∈ lex_product k n,
        o = ⟨encode_from (fun _ j => some (dimension_row j)) 0 u⟩) →
      scan_pointers n ft = some () := by
  intro ft
  induction ft with
  | nil => intro _; rfl
  | cons o rest ih =>
    intro h
    obtain ⟨u, hu, rfl⟩ := h o (List.mem_cons_self _ _)
    simp only [scan_pointers]
    rw [scan_pointer_columns_encoded k n u hu (List.range n) (fun j hj => List.mem_range.mp hj)]
    exact ih (fun i hi => h i (List.mem_cons_of_mem _ hi))

theorem mem_foreign_key_table (k n L : Nat) (o : FactTableObject Nat)
    (h : o ∈ emitted (fun _ j => j) L 0 0 [] (lex_product k n)) :
    o.relations_ ∈ lex_product k n := by
  obtain ⟨u, hu, rfl⟩ := mem_emitted _ _ _ _ _ _ o h
  simpa [encode_from_row_index] using hu

theorem mem_pointer_table (k n L : Nat) (o : FactTableObject (shared_ptr DimensionObject))
    (h : o ∈ emitted (fun _ j => some (dimension_row j)) L 0 0 [] (lex_product k n)) :
    ∃ u ∈ lex_product k n, o = ⟨encode_from (fun _ j => some (dimension_row j)) 0 u⟩ := by
  obtain ⟨u, hu, rfl⟩ := mem_emitted _ _ _ _ _ _ o h
  exact ⟨u, hu, by simp⟩

/-- One repetition over the star schema: its result. -/
theorem repetition_star_schema (n k L : Nat) (hn : 1 ≤ n) (hsz : n < size_t_modulus) :
    repetition k L n (star_schema n k)
      = some ⟨star_schema n k, emitted (fun _ j => j) L 0 0 [] (lex_product k n),
          emitted (fun _ j => some (dimension_row j)) L 0 0 [] (lex_product k n)⟩ := by
  unfold repetition
  simp only [get_fact_table_foreign_key n k L hn hsz, get_fact_table_pointer n k L hn hsz]
  have h1 := scan_foreign_keys_star_schema n k _ (mem_foreign_key_table k n L)
  have h2 := scan_pointers_encoded k n _ (mem_pointer_table k n L)
  simp only [star_schema] at h1 ⊢
  rw [h1, h2]

theorem repetitions_star_schema (n k L : Nat) (hn : 1 ≤ n) (hsz : n < size_t_modulus) :
    ∀ r, repetitions k L n r (star_schema n k) = some (star_schema n k) := by
  intro r
  induction r with
  | zero => rfl
  | succ r ih => simp only [repetitions, repetition_star_schema n k L hn hsz, ih]

/-- The run for `n = 0`: the number of levels is `2 ^ 64`, and a cap `L` of at
most `k ^ 4` tuples is reached. -/
theorem zero_dimensions (k L : Nat) (hk : 1 ≤ k) (hL : L ≤ k ^ 4) :
    ∃ tbl, tuples_of (get_fact_table k L 0 () [] push_row_index) = some tbl
      ∧ tbl.length = L
      ∧ ∀ t ∈ tbl, t.length = size_t_modulus := by
  have h4 : 4 ≤ size_t_modulus := by decide
  have hpow : k ^ 4 ≤ k ^ size_t_modulus := Nat.pow_le_pow_right hk h4
  refine ⟨(lex_product k size_t_modulus).take L, ?_, ?_, ?_⟩
  · rw [tuples_of_row_index, last_dimension_table_index_zero]
  · rw [List.length_take, length_lex_product]
    exact Nat.min_eq_left (Nat.le_trans hL hpow)
  · intro t ht
    exact ((mem_lex_product k size_t_modulus t).mp (List.mem_of_mem_take ht)).1

/-! ## Lemmas on the recorded events -/

/-- Dropping the events of the recording loop gives the loop itself. -/
theorem for_tuple_index_events_erase {σ T : Type} (L : Nat) (add : Callback σ T)
    (last d : Nat)
    (rec_e : Nat → Enumeration σ T × List Event → Option (Enumeration σ T × List Event))
    (rec_f : Nat → Enumeration σ T → Option (Enumeration σ T))
    (hrec : ∀ d s ev, (rec_e d (s, ev)).map Prod.fst = rec_f d s) :
    ∀ (js : List Nat) s ev,
      (for_tuple_index_events L add last d rec_e js (s, ev)).map Prod.fst
        = for_tuple_index L add last d rec_f js s := by
  intro js
  induction js with
  | nil => intro s ev; rfl
  | cons j rest ih =>
    intro s ev
    by_cases hcap : L ≤ s.tuples_in_fact_table
    · simp [for_tuple_index_events, for_tuple_index, hcap]
    · cases hadd : add d j (s.captured, s.current_tuple) with
      | none => simp [for_tuple_index_events, for_tuple_index, hcap, hadd]
      | some ct =>
        obtain ⟨c, t⟩ := ct
        by_cases hd : d < last
        · have h := hrec (d + 1) ⟨c, t, s.fact_table, s.tuples_in_fact_table⟩
            (ev ++ [Event.call d j s.tuples_in_fact_table])
          cases hr : rec_e (d + 1) (⟨c, t, s.fact_table, s.tuples_in_fact_table⟩,
              ev ++ [Event.call d j s.tuples_in_fact_table]) with
          | none =>
            rw [hr] at h
            simp only [Option.map_none'] at h
            simp [for_tuple_index_events, for_tuple_index, hcap, hadd, hd, hr, ← h]
          | some s2 =>
            rw [hr] at h
            simp only [Option.map_some'] at h
            cases hp : pop_back s2.1.current_tuple with
            | none =>
              simp [for_tuple_index_events, for_tuple_index, hcap, hadd, hd, hr, ← h, hp]
            | some t3 =>
              simp only [for_tuple_index_events, for_tuple_index, hcap, hadd, hd, hr, ← h, hp,
                if_true, if_false]
              exact ih _ _
        · simp only [for_tuple_index_events, for_tuple_index, hcap, hadd, hd, if_false]
          cases hp : pop_back t with
          | none => rfl
          | some t3 => exact ih _ _

/-- Dropping the events of the recording lambda gives `rec_pointer`. -/
theorem rec_pointer_events_erase {σ T : Type} (k L : Nat) (add : Callback σ T) (last : Nat) :
    ∀ (budget d : Nat) s ev,
      (rec_pointer_events k L add last budget d (s, ev)).map Prod.fst
        = rec_pointer k L add last budget d s := by
  intro budget
  induction budget with
  | zero => intro d s ev; rfl
  | succ b ih =>
    intro d s ev
    rw [rec_pointer_events, rec_pointer]
    exact for_tuple_index_events_erase L add last d _ _ ih (List.range k) s _

/-- Dropping the events of the recording run gives `get_fact_table`. -/
theorem get_fact_table_events_erase {σ T : Type} (k L n : Nat) (c : σ) (t : List T)
    (add : Callback σ T) :
    (get_fact_table_events k L n c t add).map Prod.fst = get_fact_table k L n c t add :=
  rec_pointer_events_erase k L add _ _ 0 _ []

/-- The recording loop of level `d` for a callback that appends one value per
call and keeps the invariant `Inv` of its captured state. -/
theorem for_tuple_index_events_in_range {σ T : Type} (k L : Nat) (add : Callback σ T)
    (Inv : σ → Prop) (last d : Nat)
    (rec_e : Nat → Enumeration σ T × List Event → Option (Enumeration σ T × List Event))
    (hd : d ≤ last)
    (hadd : ∀ j c t, j < k → Inv c → ∃ c' x, add d j (c, t) = some (c', t ++ [x]) ∧ Inv c')
    (hrec : d < last → ∀ s ev, Inv s.captured →
      run_in_range Inv k L last (d + 1) s ev (rec_e (d + 1) (s, ev))) :
    ∀ (js : List Nat), (∀ j ∈ js, j < k) → ∀ s ev, Inv s.captured →
      run_in_range Inv k L last d s ev (for_tuple_index_events L add last d rec_e js (s, ev)) := by
  intro js
  induction js with
  | nil =>
    intro _ s ev hs
    exact ⟨s, [], by simp [for_tuple_index_events], hs, rfl, ⟨[], by simp, by simp⟩, by simp⟩
  | cons j rest ih =>
    intro hjs s ev hs
    have hj : j < k := hjs j (List.mem_cons_self _ _)
    have hrest : ∀ i ∈ rest, i < k := fun i hi => hjs i (List.mem_cons_of_mem _ hi)
    by_cases hcap : L ≤ s.tuples_in_fact_table
    · exact ⟨s, [], by simp [for_tuple_index_events, hcap], hs, rfl, ⟨[], by simp, by simp⟩,
        by simp⟩
    · obtain ⟨c, x, hc, hinv⟩ := hadd j s.captured s.current_tuple hj hs
      have hcall : event_in_range k L last (Event.call d j s.tuples_in_fact_table) :=
        ⟨hd, hj, Nat.lt_of_not_le hcap⟩
      by_cases hlt : d < last
      · obtain ⟨s2, ev2, h2, hinv2, ht2, ⟨new2, hft2, hlen2⟩, hev2⟩ :=
          hrec hlt ⟨c, s.current_tuple ++ [x], s.fact_table, s.tuples_in_fact_table⟩
            (ev ++ [Event.call d j s.tuples_in_fact_table]) hinv
        simp only at ht2 hft2 hlen2
        obtain ⟨s3, ev3, h3, hinv3, ht3, ⟨new3, hft3, hlen3⟩, hev3⟩ :=
          ih hrest ⟨s2.captured, s.current_tuple, s2.fact_table, s2.tuples_in_fact_table⟩
            (ev ++ [Event.call d j s.tuples_in_fact_table] ++ ev2) hinv2
        simp only at ht3 hft3 hlen3
        refine ⟨s3, [Event.call d j s.tuples_in_fact_table] ++ ev2 ++ ev3, ?_, hinv3, ht3,
          ⟨new2 ++ new3, ?_, ?_⟩, ?_⟩
        · simp only [for_tuple_index_events, hcap, if_false, hc, hlt, if_true, h2, ht2,
            pop_back_concat, h3]
          simp only [List.append_assoc]
        · rw [hft3, hft2, List.append_assoc]
        · intro o ho
          rcases List.mem_append.mp ho with ho | ho
          · rw [hlen2 o ho, List.length_append, List.length_singleton]
            omega
          · exact hlen3 o ho
        · intro e he
          simp only [List.append_assoc, List.mem_append, List.mem_singleton] at he
          rcases he with rfl | he | he
          · exact hcall
          · exact hev2 e he
          · exact hev3 e he
      · obtain ⟨s3, ev3, h3, hinv3, ht3, ⟨new3, hft3, hlen3⟩, hev3⟩ :=
          ih hrest ⟨c, s.current_tuple, s.fact_table ++ [⟨s.current_tuple ++ [x]⟩],
              s.tuples_in_fact_table + 1⟩
            (ev ++ [Event.call d j s.tuples_in_fact_table, Event.emit s.tuples_in_fact_table])
            hinv
        simp only at ht3 hft3 hlen3
        refine ⟨s3, [Event.call d j s.tuples_in_fact_table, Event.emit s.tuples_in_fact_table]
          ++ ev3, ?_, hinv3, ht3, ⟨[⟨s.current_tuple ++ [x]⟩] ++ new3, ?_, ?_⟩, ?_⟩
        · simp only [for_tuple_index_events, hcap, if_false, hc, hlt, pop_back_concat, h3]
          simp only [List.append_assoc, List.singleton_append, List.cons_append,
            List.nil_append]
        · rw [hft3, List.append_assoc]
        · intro o ho
          rcases List.mem_append.mp ho with ho | ho
          · rw [List.mem_singleton.mp ho, List.length_append, List.length_singleton]
            omega
          · exact hlen3 o ho
        · intro e he
          simp only [List.mem_append, List.mem_cons, List.mem_singleton, List.not_mem_nil,
            or_false] at he
          rcases he with (rfl | rfl) | he
          · exact hcall
          · exact Nat.lt_of_not_le hcap
          · exact hev3 e he

/-- The recording lambda at level `d` with `m` levels below it, for a callback
that appends one value per call and keeps the invariant `Inv`. -/
theorem rec_pointer_events_in_range {σ T : Type} (k L : Nat) (add : Callback σ T)
    (Inv : σ → Prop) (last : Nat)
    (hadd : ∀ d j c t, d ≤ last → j < k → Inv c →
      ∃ c' x, add d j (c, t) = some (c', t ++ [x]) ∧ Inv c') :
    ∀ (m d : Nat), d + m = last → ∀ s ev, Inv s.captured →
      run_in_range Inv k L last d s ev (rec_pointer_events k L add last (m + 1) d (s, ev)) := by
  intro m
  induction m with
  | zero =>
    intro d hd s ev hs
    rw [rec_pointer_events]
    obtain ⟨s', ev', h, hinv, ht, hft, hev⟩ :=
      for_tuple_index_events_in_range k L add Inv last d _ (by omega)
        (fun j c t hj hc => hadd d j c t (by omega) hj hc) (fun h => by omega)
        (List.range k) (fun j hj => List.mem_range.mp hj) s (ev ++ [Event.enter d]) hs
    refine ⟨s', [Event.enter d] ++ ev', by rw [h, List.append_assoc], hinv, ht, hft, ?_⟩
    intro e he
    rcases List.mem_append.mp he with he | he
    · rw [List.mem_singleton.mp he]
      show d ≤ last
      omega
    · exact hev e he
  | succ m ih =>
    intro d hd s ev hs
    rw [rec_pointer_events]
    obtain ⟨s', ev', h, hinv, ht, hft, hev⟩ :=
      for_tuple_index_events_in_range k L add Inv last d _ (by omega)
        (fun j c t hj hc => hadd d j c t (by omega) hj hc)
        (fun _ s ev hs => ih (d + 1) (by omega) s ev hs)
        (List.range k) (fun j hj => List.mem_range.mp hj) s (ev ++ [Event.enter d]) hs
    refine ⟨s', [Event.enter d] ++ ev', by rw [h, List.append_assoc], hinv, ht, hft, ?_⟩
    intro e he
    rcases List.mem_append.mp he with he | he
    · rw [List.mem_singleton.mp he]
      show d ≤ last
      omega
    · exact hev e he

/-- The recording run of `get_fact_table` for a callback that appends one
value per call and keeps the invariant `Inv`. -/
theorem get_fact_table_events_in_range {σ T : Type} (k L n : Nat) (add : Callback σ T)
    (Inv : σ → Prop) (c : σ) (t : List T) (hc : Inv c)
    (hadd : ∀ d j c t, d ≤ last_dimension_table_index n → j < k → Inv c →
      ∃ c' x, add d j (c, t) = some (c', t ++ [x]) ∧ Inv c') :
    ∃ s' ev, get_fact_table_events k L n c t add = some (s', ev)
      ∧ get_fact_table k L n c t add = some s'
      ∧ Inv s'.captured ∧ s'.current_tuple = t
      ∧ (∀ o ∈ s'.fact_table,
          o.relations_.length = t.length + last_dimension_table_index n + 1)
      ∧ ∀ e ∈ ev, event_in_range k L (last_dimension_table_index n) e := by
  obtain ⟨s', ev, h, hinv, ht, ⟨new, hft, hlen⟩, hev⟩ :=
    rec_pointer_events_in_range k L add Inv (last_dimension_table_index n) hadd
      (last_dimension_table_index n) 0 (Nat.zero_add _) ⟨c, t, [], 0⟩ [] hc
  simp only [List.nil_append, Nat.sub_zero] at h ht hft hlen
  have herase := get_fact_table_events_erase k L n c t add
  unfold get_fact_table_events at herase ⊢
  rw [h] at herase
  refine ⟨s', ev, h, herase.symm, hinv, ht, ?_, hev⟩
  intro o ho
  rw [hft] at ho
  exact hlen o ho

/-! ## Lemmas on the positions of the lexicographic product -/

theorem getElem?_flatMap_cons_column (below : List (List Nat)) :
    ∀ (k t : Nat), t < k * below.length →
      ((List.range k).flatMap (fun j => below.map (fun u => j :: u)))[t]?
        = (below[t % below.length]?).map (fun u => (t / below.length) :: u) := by
  intro k
  induction k with
  | zero => intro t ht; simp at ht
  | succ k ih =>
    intro t ht
    have hlen := length_flatMap_cons_column (List.range k) below
    rw [List.length_range] at hlen
    rw [List.range_succ, List.flatMap_append]
    by_cases hlt : t < k * below.length
    · rw [List.getElem?_append_left (by rw [hlen]; exact hlt)]
      exact ih t hlt
    · have hge : k * below.length ≤ t := Nat.le_of_not_lt hlt
      have hdiv : t / below.length = k := Nat.div_eq_of_lt_le hge ht
      have hmod : t % below.length = t - k * below.length := by
        rw [Nat.mod_def, hdiv, Nat.mul_comm]
      rw [List.getElem?_append_right (by rw [hlen]; exact hge), hlen, hdiv, hmod]
      simp

/-- The tuple at position `t` of the lexicographic product holds at column `d`
the digit of weight `k ^ (n - 1 - d)` of `t` written in base `k`. -/
theorem getElem?_lex_product (k : Nat) :
    ∀ (n t d : Nat), t < k ^ n → d < n →
      ∃ u, (lex_product k n)[t]? = some u ∧ u.length = n
        ∧ u[d]? = some ((t / k ^ (n - 1 - d)) % k) := by
  intro n
  induction n with
  | zero => intro t d _ hd; omega
  | succ n ih =>
    intro t d ht hd
    have hpos : 0 < k ^ n := by
      rcases Nat.eq_zero_or_pos (k ^ n) with h | h
      · rw [Nat.pow_succ, h] at ht; omega
      · exact h
    have hmodlt : t % k ^ n < (lex_product k n).length := by
      rw [length_lex_product]; exact Nat.mod_lt _ hpos
    have hu : (lex_product k n)[t % k ^ n]? = some (lex_product k n)[t % k ^ n] :=
      List.getElem?_eq_getElem hmodlt
    have hulen : ((lex_product k n)[t % k ^ n]).length = n :=
      ((mem_lex_product k n _).mp (List.getElem_mem hmodlt)).1
    have ht' : t < k * (lex_product k n).length := by
      rw [length_lex_product, Nat.mul_comm, ← Nat.pow_succ]; exact ht
    refine ⟨(t / k ^ n) :: (lex_product k n)[t % k ^ n], ?_, by simp [hulen], ?_⟩
    · rw [lex_product, getElem?_flatMap_cons_column _ k t ht', length_lex_product, hu]
      rfl
    · cases d with
      | zero =>
        have hq : t / k ^ n < k := Nat.div_lt_of_lt_mul (by rw [← Nat.pow_succ]; exact ht)
        simp [Nat.mod_eq_of_lt hq]
      | succ d =>
        have hd' : d < n := by omega
        obtain ⟨u, hu', _, hdig⟩ := ih (t % k ^ n) d (Nat.mod_lt _ hpos) hd'
        rw [hu] at hu'
        injection hu' with hu'
        have he : n + 1 - 1 - (d + 1) = n - 1 - d := by omega
        have hsplit : k ^ n = k ^ (n - 1 - d) * k ^ (d + 1) := by
          rw [← Nat.pow_add]; congr 1; omega
        have hdvd : k ∣ k ^ (d + 1) := ⟨k ^ d, by rw [Nat.pow_succ, Nat.mul_comm]⟩
        rw [List.getElem?_cons_succ, hu', hdig, he]
        congr 1
        rw [hsplit, Nat.mod_mul_right_div_self, Nat.mod_mod_of_dvd _ hdvd]

/-- The tuples of `fact_table_RM`, by position: every tuple stands at a
position `t < min L (k ^ n)` and holds the digits of `t` in base `k`, and every
such position holds a tuple. -/
theorem foreign_key_table_positions (n k L : Nat) (hn : 1 ≤ n) (hsz : n < size_t_modulus) :
    ∃ rm, get_fact_table k L n (star_schema n k) [] add_foreign_key_to_tuple = some rm
      ∧ rm.fact_table.length = min L (k ^ n)
      ∧ (∀ o ∈ rm.fact_table, ∃ t, t < min L (k ^ n)
          ∧ ∀ d, d < n → o.relations_[d]? = some ((t / k ^ (n - 1 - d)) % k))
      ∧ (∀ t, t < min L (k ^ n) → ∃ o ∈ rm.fact_table,
          ∀ d, d < n → o.relations_[d]? = some ((t / k ^ (n - 1 - d)) % k)) := by
  have hlen : (emitted (fun _ j => j) L 0 0 [] (lex_product k n)).length = min L (k ^ n) := by
    rw [length_emitted, length_lex_product, Nat.sub_zero]
  have hpos : ∀ t, t < min L (k ^ n) →
      ∃ u, (emitted (fun _ j => j) L 0 0 [] (lex_product k n))[t]? = some ⟨u⟩
        ∧ ∀ d, d < n → u[d]? = some ((t / k ^ (n - 1 - d)) % k) := by
    intro t ht
    have htL : t < L := Nat.lt_of_lt_of_le ht (Nat.min_le_left _ _)
    have htk : t < k ^ n := Nat.lt_of_lt_of_le ht (Nat.min_le_right _ _)
    obtain ⟨u, hu, _, _⟩ := getElem?_lex_product k n t 0 htk (by omega)
    refine ⟨u, ?_, ?_⟩
    · rw [getElem?_emitted, Nat.sub_zero, List.getElem?_take_of_lt htL, hu]
      simp [encode_from_row_index]
    · intro d hd
      obtain ⟨u', hu', _, hdig⟩ := getElem?_lex_product k n t d htk hd
      rw [hu] at hu'
      injection hu' with hu'
      rw [hu']
      exact hdig
  refine ⟨_, get_fact_table_foreign_key n k L hn hsz, hlen, ?_, ?_⟩
  · intro o ho
    obtain ⟨t, ht⟩ := List.mem_iff_getElem?.mp ho
    have htlt : t < min L (k ^ n) := by
      rw [← hlen]
      exact (List.getElem?_eq_some.mp ht).1
    obtain ⟨u, hu, hdig⟩ := hpos t htlt
    rw [ht] at hu
    injection hu with hu
    subst hu
    exact ⟨t, htlt, hdig⟩
  · intro t ht
    obtain ⟨u, hu, hdig⟩ := hpos t ht
    exact ⟨⟨u⟩, List.mem_iff_getElem?.mpr ⟨t, hu⟩, hdig⟩

/-! ## Lemmas on the output and on `main` -/

/-- The repetition with output is the repetition, together with four records. -/
theorem repetition_records_eq {τ : Type} (duration : Nat → τ) (k L n : Nat) (s : StarSchema)
    (o : Streams τ) :
    repetition_records duration k L n s o
      = (repetition k L n s).map (fun rep => (rep.schema,
          ⟨o.output ++ [Line.record n EncodingKind.foreign (duration 2),
              Line.record n EncodingKind.pointer (duration 3)],
            o.output_build ++ [Line.record n EncodingKind.foreign (duration 0),
              Line.record n EncodingKind.pointer (duration 1)]⟩)) := by
  unfold repetition_records repetition
  cases get_fact_table k L n s [] add_foreign_key_to_tuple with
  | none => rfl
  | some rm =>
    simp only
    cases get_fact_table k L n rm.captured [] add_pointer_to_tuple with
    | none => rfl
    | some rtm =>
      simp only
      cases scan_foreign_keys n rm.fact_table rtm.captured.dimension_indexes with
      | none => rfl
      | some d =>
        simp only
        cases scan_pointers n rtm.fact_table with
        | none => rfl
        | some u => simp

/-- Whenever the repetition loop returns, it has appended the records of its
repetitions to the two files. -/
theorem repetitions_records_streams {τ : Type} (duration : Nat → Nat → τ) (k L n : Nat) :
    ∀ (is : List Nat) (s : StarSchema) (o : Streams τ) (r : StarSchema × Streams τ),
      repetitions_records duration k L n is (s, o) = some r →
        r.2.output = o.output ++ scan_records duration n is
          ∧ r.2.output_build = o.output_build ++ build_records duration n is := by
  intro is
  induction is with
  | nil =>
    intro s o r h
    simp only [repetitions_records, Option.some.injEq] at h
    subst h
    simp [scan_records, build_records]
  | cons i rest ih =>
    intro s o r h
    simp only [repetitions_records, repetition_records_eq] at h
    cases hrep : repetition k L n s with
    | none => rw [hrep] at h; simp at h
    | some rep =>
      rw [hrep] at h
      simp only [Option.map_some'] at h
      obtain ⟨h1, h2⟩ := ih _ _ r h
      simp [h1, h2, scan_records, build_records, List.flatMap_cons, List.append_assoc]

/-- The repetition loop over the star schema returns, with the star schema
unchanged. -/
theorem repetitions_records_star_schema {τ : Type} (duration : Nat → Nat → τ) (k L n : Nat)
    (hn : 1 ≤ n) (hsz : n < size_t_modulus) :
    ∀ (is : List Nat) (o : Streams τ),
      repetitions_records duration k L n is (star_schema n k, o)
        = some (star_schema n k,
            ⟨o.output ++ scan_records duration n is,
              o.output_build ++ build_records duration n is⟩) := by
  intro is
  induction is with
  | nil => intro o; simp [repetitions_records, scan_records, build_records]
  | cons i rest ih =>
    intro o
    simp only [repetitions_records, repetition_records_eq,
      repetition_star_schema n k L hn hsz, Option.map_some', ih]
    simp [scan_records, build_records, List.flatMap_cons, List.append_assoc]

theorem evaluate_for_n_dimensions_records_eq {τ : Type} (duration : Nat → Nat → τ)
    (k L n : Nat) (o : Streams τ) (hn : 1 ≤ n) (hsz : n < size_t_modulus) :
    evaluate_for_n_dimensions_records duration k L n o
      = some (star_schema n k,
          ⟨o.output ++ scan_records duration n (List.range number_of_repetitions),
            o.output_build ++ build_records duration n (List.range number_of_repetitions)⟩) := by
  unfold evaluate_for_n_dimensions_records
  simp only [setup_eq, repetitions_records_star_schema duration k L n hn hsz]

/-- The guard of `main` for a `pow` with a relative error of at most one half:
the dimension counts 2 and 3 are skipped, the counts from 4 on are not. -/
theorem guard_iff (pow : Nat → Nat → ℚ)
    (hpow : ∀ i, 2 ≤ i → i ≤ 10 → |pow 100 i - (100 : ℚ) ^ i| ≤ (100 : ℚ) ^ i / 2)
    (i : Nat) (h2 : 2 ≤ i) (h10 : i ≤ 10) :
    pow number_of_tuples_in_dimension_tables i < (number_of_tuples_in_fact_table : ℚ)
      ↔ i < 4 := by
  have h := hpow i h2 h10
  rw [abs_le] at h
  obtain ⟨hlo, hhi⟩ := h
  simp only [number_of_tuples_in_dimension_tables, number_of_tuples_in_fact_table]
  interval_cases i <;> norm_num at hlo hhi ⊢ <;> linarith

/-- The loop of `main` over dimension counts between 2 and 10. -/
theorem main_loop_steps {τ : Type} (pow : Nat → Nat → ℚ) (duration : Nat → Nat → Nat → τ)
    (hpow : ∀ i, 2 ≤ i → i ≤ 10 → |pow 100 i - (100 : ℚ) ^ i| ≤ (100 : ℚ) ^ i / 2) :
    ∀ (is : List Nat), (∀ i ∈ is, 2 ≤ i ∧ i ≤ 10) →
      ∀ (steps : List MainStep) (o : Streams τ), ∃ o',
        main_loop pow duration is (steps, o)
          = some (steps ++ is.map
              (fun i => if i < 4 then MainStep.skipped i else MainStep.evaluated i), o') := by
  intro is
  induction is with
  | nil => intro _ steps o; exact ⟨o, by simp [main_loop]⟩
  | cons i rest ih =>
    intro his steps o
    obtain ⟨h2, h10⟩ := his i (List.mem_cons_self _ _)
    have hrest : ∀ j ∈ rest, 2 ≤ j ∧ j ≤ 10 := fun j hj => his j (List.mem_cons_of_mem _ hj)
    have hg := guard_iff pow hpow i h2 h10
    by_cases h4 : i < 4
    · obtain ⟨o', ho'⟩ := ih hrest (steps ++ [MainStep.skipped i]) o
      refine ⟨o', ?_⟩
      simp only [main_loop, hg.mpr h4, if_true, ho', List.map_cons, h4, List.append_assoc,
        List.singleton_append]
    · have hsz : i < size_t_modulus := Nat.lt_of_le_of_lt h10 (by decide)
      have hev := evaluate_for_n_dimensions_records_eq (duration i)
        number_of_tuples_in_dimension_tables number_of_tuples_in_fact_table i o (by omega) hsz
      obtain ⟨o', ho'⟩ := ih hrest (steps ++ [MainStep.evaluated i])
        ⟨o.output ++ scan_records (duration i) i (List.range number_of_repetitions),
          o.output_build ++ build_records (duration i) i (List.range number_of_repetitions)⟩
      refine ⟨o', ?_⟩
      have hng : ¬ pow number_of_tuples_in_dimension_tables i
          < (number_of_tuples_in_fact_table : ℚ) := fun h => h4 (hg.mp h)
      simp only [main_loop, hng, if_false, hev, ho', List.map_cons, h4, List.append_assoc,
        List.singleton_append]

/-- The steps of `main` for a `pow` with a relative error of at most one half. -/
theorem main_steps {τ : Type} (pow : Nat → Nat → ℚ) (duration : Nat → Nat → Nat → τ)
    (hpow : ∀ i, 2 ≤ i → i ≤ 10 → |pow 100 i - (100 : ℚ) ^ i| ≤ (100 : ℚ) ^ i / 2) :
    ∃ o, main pow duration
      = some ([MainStep.skipped 2, MainStep.skipped 3, MainStep.evaluated 4,
          MainStep.evaluated 5, MainStep.evaluated 6, MainStep.evaluated 7,
          MainStep.evaluated 8, MainStep.evaluated 9, MainStep.evaluated 10], o) := by
  obtain ⟨o, ho⟩ := main_loop_steps pow duration hpow
    (List.range' 2 (max_number_of_dimension_tables - 1))
    (by
      intro i hi
      rw [List.mem_range'_1] at hi
      simp only [max_number_of_dimension_tables] at hi
      omega)
    [] ⟨[Line.header], [Line.header]⟩
  refine ⟨o, ?_⟩
  unfold main
  rw [ho]
  rfl

/-! ## The counters recorded with the events -/

theorem emit_count_append (a b : List Event) :
    emit_count (a ++ b) = emit_count a + emit_count b := by
  induction a with
  | nil => simp [emit_count]
  | cons e a ih =>
    cases e with
    | enter d => exact ih
    | call d j c => exact ih
    | emit c =>
      show emit_count (a ++ b) + 1 = emit_count a + 1 + emit_count b
      rw [ih]
      omega

theorem counters_agree_append (a b : List Event) :
    ∀ c, counters_agree c a → counters_agree (c + emit_count a) b →
      counters_agree c (a ++ b) := by
  induction a with
  | nil => intro c _ hb; simpa [emit_count] using hb
  | cons e a ih =>
    intro c ha hb
    cases e with
    | enter d => exact ih c ha hb
    | call d j c' => exact ⟨ha.1, ih c ha.2 hb⟩
    | emit c' =>
      refine ⟨ha.1, ih (c + 1) ha.2 ?_⟩
      have e : c + 1 + emit_count a = c + emit_count (Event.emit c' :: a) := by
        simp only [emit_count]; omega
      rw [e]
      exact hb

/-- Whenever the recording loop returns, the counters recorded with its events
agree with the number of appends, for every callback. -/
theorem for_tuple_index_events_counters {σ T : Type} (L : Nat) (add : Callback σ T)
    (last d : Nat)
    (rec_e : Nat → Enumeration σ T × List Event → Option (Enumeration σ T × List Event))
    (hrec : ∀ s ev r, rec_e (d + 1) (s, ev) = some r →
      ∃ ev', r.2 = ev ++ ev' ∧ counters_agree s.tuples_in_fact_table ev'
        ∧ r.1.tuples_in_fact_table = s.tuples_in_fact_table + emit_count ev') :
    ∀ (js : List Nat) s ev r, for_tuple_index_events L add last d rec_e js (s, ev) = some r →
      ∃ ev', r.2 = ev ++ ev' ∧ counters_agree s.tuples_in_fact_table ev'
        ∧ r.1.tuples_in_fact_table = s.tuples_in_fact_table + emit_count ev' := by
  intro js
  induction js with
  | nil =>
    intro s ev r h
    simp only [for_tuple_index_events, Option.some.injEq] at h
    subst h
    exact ⟨[], by simp, trivial, rfl⟩
  | cons j rest ih =>
    intro s ev r h
    by_cases hcap : L ≤ s.tuples_in_fact_table
    · simp only [for_tuple_index_events, hcap, if_true, Option.some.injEq] at h
      subst h
      exact ⟨[], by simp, trivial, rfl⟩
    · cases hadd : add d j (s.captured, s.current_tuple) with
      | none => simp [for_tuple_index_events, hcap, hadd] at h
      | some ct =>
        obtain ⟨c, t⟩ := ct
        by_cases hd : d < last
        · cases hr : rec_e (d + 1) (⟨c, t, s.fact_table, s.tuples_in_fact_table⟩,
              ev ++ [Event.call d j s.tuples_in_fact_table]) with
          | none => simp [for_tuple_index_events, hcap, hadd, hd, hr] at h
          | some s2 =>
            obtain ⟨ev2, he2, hc2, hn2⟩ := hrec _ _ _ hr
            simp only at hc2 hn2
            cases hp : pop_back s2.1.current_tuple with
            | none => simp [for_tuple_index_events, hcap, hadd, hd, hr, hp] at h
            | some t3 =>
              simp only [for_tuple_index_events, hcap, hadd, hd, hr, hp, if_true, if_false] at h
              obtain ⟨ev3, he3, hc3, hn3⟩ := ih _ _ _ h
              simp only at hc3 hn3
              refine ⟨[Event.call d j s.tuples_in_fact_table] ++ ev2 ++ ev3, ?_, ?_, ?_⟩
              · rw [he3, he2]; simp only [List.append_assoc]
              · rw [List.append_assoc]
                refine ⟨rfl, counters_agree_append ev2 ev3 _ hc2 ?_⟩
                rw [← hn2]; exact hc3
              · have e : emit_count ([Event.call d j s.tuples_in_fact_table] ++ ev2 ++ ev3)
                    = emit_count ev2 + emit_count ev3 := by
                  rw [List.append_assoc]
                  exact emit_count_append ev2 ev3
                rw [hn3, e]
                omega
        · cases hp : pop_back t with
          | none => simp [for_tuple_index_events, hcap, hadd, hd, hp] at h
          | some t3 =>
            simp only [for_tuple_index_events, hcap, hadd, hd, hp, if_false] at h
            obtain ⟨ev3, he3, hc3, hn3⟩ := ih _ _ _ h
            simp only at hc3 hn3
            refine ⟨[Event.call d j s.tuples_in_fact_table,
              Event.emit s.tuples_in_fact_table] ++ ev3, ?_, ?_, ?_⟩
            · rw [he3]; simp only [List.append_assoc]
            · exact ⟨rfl, rfl, hc3⟩
            · have e : emit_count ([Event.call d j s.tuples_in_fact_table,
                  Event.emit s.tuples_in_fact_table] ++ ev3) = emit_count ev3 + 1 := rfl
              rw [hn3, e]
              omega

/-- Whenever the recording lambda returns, the counters recorded with its
events agree with the number of appends, for every callback. -/
theorem rec_pointer_events_counters {σ T : Type} (k L : Nat) (add : Callback σ T)
    (last : Nat) :
    ∀ (budget d : Nat) s ev r, rec_pointer_events k L add last budget d (s, ev) = some r →
      ∃ ev', r.2 = ev ++ ev' ∧ counters_agree s.tuples_in_fact_table ev'
        ∧ r.1.tuples_in_fact_table = s.tuples_in_fact_table + emit_count ev' := by
  intro budget
  induction budget with
  | zero => intro d s ev r h; simp [rec_pointer_events] at h
  | succ b ih =>
    intro d s ev r h
    rw [rec_pointer_events] at h
    obtain ⟨ev', he, hc, hn⟩ :=
      for_tuple_index_events_counters L add last d _ (fun s ev r h => ih (d + 1) s ev r h)
        (List.range k) s (ev ++ [Event.enter d]) r h
    refine ⟨[Event.enter d] ++ ev', by rw [he, List.append_assoc], hc, ?_⟩
    have e : emit_count ([Event.enter d] ++ ev') = emit_count ev' := rfl
    rw [hn, e]

/-- Whenever the recording run of `get_fact_table` returns, the counters
recorded with its events agree with the number of appends, for every
callback. -/
theorem get_fact_table_events_counters {σ T : Type} (k L n : Nat) (c : σ) (t : List T)
    (add : Callback σ T) (r : Enumeration σ T × List Event)
    (h : get_fact_table_events k L n c t add = some r) :
    counters_agree 0 r.2 ∧ r.1.tuples_in_fact_table = emit_count r.2 := by
  obtain ⟨ev', he, hc, hn⟩ := rec_pointer_events_counters k L add _ _ 0 _ [] r h
  simp only [List.nil_append, Nat.zero_add] at he hc hn
  rw [he]
  exact ⟨hc, hn⟩

/-! ## Claims on `get_fact_table` -/

/-- C1 (prefix property). For a dimension count `n ≥ 1` (a `size_t`) and
`L ≤ k ^ n`, `get_fact_table` with the callback recording the row index returns
exactly the first `L` tuples of the lexicographic product `{0..k-1}^n`, and
these are `L` tuples. The product is the strictly increasing list, in
lexicographic order, of all tuples of length `n` with entries below `k`. -/
theorem C1_prefix_property (n k L : Nat) (hn : 1 ≤ n) (hsz : n < size_t_modulus)
    (hL : L ≤ k ^ n) :
    tuples_of (get_fact_table k L n () [] push_row_index) = some ((lex_product k n).take L)
      ∧ ((lex_product k n).take L).length = L
      ∧ (lex_product k n).Pairwise (List.Lex (fun a b : Nat => a < b))
      ∧ ∀ t, t ∈ lex_product k n ↔ t.length = n ∧ ∀ x ∈ t, x < k := by
  refine ⟨?_, ?_, pairwise_lex_product k n, mem_lex_product k n⟩
  · rw [tuples_of_row_index, last_dimension_table_index_succ n hn hsz]
  · rw [List.length_take, length_lex_product]
    exact Nat.min_eq_left hL

/-- C1, witness: `n = 2`, `k = 3`, `L = 5` gives `(0,0),(0,1),(0,2),(1,0),(1,1)`. -/
theorem C1_prefix_property_witness :
    1 ≤ 2 ∧ 2 < size_t_modulus ∧ 5 ≤ 3 ^ 2
      ∧ tuples_of (get_fact_table 3 5 2 () [] push_row_index)
          = some [[0, 0], [0, 1], [0, 2], [1, 0], [1, 1]] :=
  ⟨by decide, by decide, by decide,
    (C1_prefix_property 2 3 5 (by decide) (by decide) (by decide)).1.trans (by decide)⟩

/-- C2 (cap respected), as amended. For a dimension count `n ≥ 1` (a `size_t`),
every `k` and `L` and every encoder, the fact table returned by
`get_fact_table` has exactly `min L (k ^ n)` tuples. -/
theorem C2_cap_respected {T : Type} (n k L : Nat) (encode : Nat → Nat → T) (hn : 1 ≤ n)
    (hsz : n < size_t_modulus) :
    (get_fact_table k L n () [] (push_encoded encode)).map (fun s => s.fact_table.length)
      = some (min L (k ^ n)) := by
  rw [length_get_fact_table, last_dimension_table_index_succ n hn hsz]

/-- C2, witness: `n = 2`, `k = 3`, `L = 5` gives `min 5 9 = 5` tuples. -/
theorem C2_cap_respected_witness :
    1 ≤ 2 ∧ 2 < size_t_modulus
      ∧ (get_fact_table 3 5 2 () [] (push_encoded (fun _ j => j))).map
          (fun s => s.fact_table.length) = some 5 :=
  ⟨by decide, by decide,
    (C2_cap_respected 2 3 5 (fun _ j => j) (by decide) (by decide)).trans (by decide)⟩

/-- C2, counterexample to the claim for all `n`: with `n = 0`, `k = 0`, `L = 1`
the loop body never runs and the fact table is empty, while
`min L (k ^ n) = min 1 (0 ^ 0) = 1`. -/
theorem C2_cap_respected_counterexample :
    (get_fact_table 0 1 0 () [] push_row_index).map (fun s => s.fact_table.length) = some 0
      ∧ min 1 (0 ^ 0) = 1
      ∧ ¬ ((get_fact_table 0 1 0 () [] push_row_index).map (fun s => s.fact_table.length)
            = some (min 1 (0 ^ 0))) := by
  decide

/-- C3 (no truncation). For a dimension count `n ≥ 1` (a `size_t`) and
`k ^ n < L`, `get_fact_table` with the callback recording the row index returns
the lexicographic product `{0..k-1}^n`: a list of `k ^ n` tuples without
repetition, holding exactly the tuples of length `n` with entries below `k`,
strictly increasing in lexicographic order. -/
theorem C3_no_truncation (n k L : Nat) (hn : 1 ≤ n) (hsz : n < size_t_modulus)
    (hL : k ^ n < L) :
    ∃ tbl, tuples_of (get_fact_table k L n () [] push_row_index) = some tbl
      ∧ tbl = lex_product k n
      ∧ tbl.length = k ^ n
      ∧ tbl.Nodup
      ∧ (∀ t, t ∈ tbl ↔ t.length = n ∧ ∀ x ∈ t, x < k)
      ∧ tbl.Pairwise (List.Lex (fun a b : Nat => a < b)) := by
  refine ⟨lex_product k n, ?_, rfl, length_lex_product k n, nodup_lex_product k n,
    mem_lex_product k n, pairwise_lex_product k n⟩
  rw [tuples_of_row_index, last_dimension_table_index_succ n hn hsz, List.take_of_length_le]
  rw [length_lex_product]
  exact Nat.le_of_lt hL

/-- C3, witness: `n = 2`, `k = 3`, `L = 100` gives all 9 tuples in order. -/
theorem C3_no_truncation_witness :
    1 ≤ 2 ∧ 2 < size_t_modulus ∧ 3 ^ 2 < 100
      ∧ tuples_of (get_fact_table 3 100 2 () [] push_row_index)
          = some [[0, 0], [0, 1], [0, 2], [1, 0], [1, 1], [1, 2], [2, 0], [2, 1], [2, 2]] := by
  refine ⟨by decide, by decide, by decide, ?_⟩
  obtain ⟨tbl, h, he, _⟩ := C3_no_truncation 2 3 100 (by decide) (by decide) (by decide)
  rw [h, he]
  decide

/-- C5 (same traversal for every encoder). For every `n`, `k`, `L` and every
encoder `encode`, the fact table built with `encode` is the fact table built
with the row-index encoder after replacing, in every tuple, the entry `j` at
column `d` by `encode d j`; and the sequence of pairs `(d, j)` passed to the
callback, written to a log by the logging callbacks, is the same for `encode`
and for the row-index encoder. -/
theorem C5_same_traversal {T : Type} (n k L : Nat) (encode : Nat → Nat → T) :
    ∃ (log : List (Nat × Nat)) (tbl : List (FactTableObject Nat)) (cnt : Nat),
      get_fact_table k L n () [] (push_encoded encode)
          = some ⟨(), [], tbl.map (fun o => ⟨encode_from encode 0 o.relations_⟩), cnt⟩
        ∧ get_fact_table k L n () [] push_row_index = some ⟨(), [], tbl, cnt⟩
        ∧ get_fact_table k L n [] [] (push_logged encode)
          = some ⟨log, [], tbl.map (fun o => ⟨encode_from encode 0 o.relations_⟩), cnt⟩
        ∧ get_fact_table k L n [] [] (push_logged (fun _ j => j)) = some ⟨log, [], tbl, cnt⟩ := by
  obtain ⟨log, log', tbl, cnt, h₁, h₂, hlog⟩ :=
    get_fact_table_sim k L n (push_logged encode) (push_logged (fun _ j => j))
      (fun a b => a = b) (encode_from encode 0) rfl
      (fun d j c₁ c₂ t hc ht =>
        ⟨c₁ ++ [(d, j)], c₂ ++ [(d, j)], encode d j, j, rfl, rfl,
          by rw [encode_from_concat, ht, Nat.zero_add], by rw [hc]⟩)
      [] [] rfl
  subst hlog
  obtain ⟨loga, fta, cnta, a₁, a₂⟩ := get_fact_table_logged k L n encode
  obtain ⟨logb, ftb, cntb, b₁, b₂⟩ := get_fact_table_logged k L n (fun _ j => j)
  rw [h₁] at a₁
  rw [h₂] at b₁
  refine ⟨log, tbl, cnt, ?_, ?_, h₁, h₂⟩
  · rw [a₂]
    injection a₁ with a₁
    injection a₁ with _ _ e₁ e₂
    rw [e₁, e₂]
  · rw [show push_row_index = push_encoded (fun _ j => j) from rfl, b₂]
    injection b₁ with b₁
    injection b₁ with _ _ e₁ e₂
    rw [e₁, e₂]

/-- C10 (zero dimensions), the code at the failing input `n = 0` with the
constants of the source (100 rows per dimension table, cap 50,000,000):
`number_of_dimension_tables - 1` wraps to `2 ^ 64 - 1`, the recursion descends
through `2 ^ 64` levels, and the fact table returned is not empty: it holds
50,000,000 tuples of `2 ^ 64` columns each. -/
theorem C10_zero_dimensions_not_empty :
    ∃ tbl, tuples_of (get_fact_table number_of_tuples_in_dimension_tables
          number_of_tuples_in_fact_table 0 () [] push_row_index) = some tbl
      ∧ tbl ≠ []
      ∧ tbl.length = number_of_tuples_in_fact_table
      ∧ ∀ t ∈ tbl, t.length = size_t_modulus := by
  obtain ⟨tbl, h, hlen, hcol⟩ := zero_dimensions number_of_tuples_in_dimension_tables
    number_of_tuples_in_fact_table (by decide) (by decide)
  refine ⟨tbl, h, ?_, hlen, hcol⟩
  intro e
  rw [e] at hlen
  exact absurd hlen (by decide)

/-! ## Claims on `evaluate_for_n_dimensions` -/

/-- C4 (encoding equivalence). For a dimension count `n ≥ 1` (a `size_t`),
and every `k` and `L`: the setup loop and the two builds of one repetition
succeed, the fact tables `fact_table_RM` and `fact_table_RTM` have the same
number of tuples, and at every tuple position `t` and column `j < n` the row
found by looking up the foreign key in `dimension_indexes[j]` is the row found
by dereferencing the handle (so they agree in `id_` and `info_`). -/
theorem C4_encoding_equivalence (n k L : Nat) (hn : 1 ≤ n) (hsz : n < size_t_modulus) :
    ∃ s rm rtm, setup n k = some s
      ∧ get_fact_table k L n s [] add_foreign_key_to_tuple = some rm
      ∧ get_fact_table k L n rm.captured [] add_pointer_to_tuple = some rtm
      ∧ repetition k L n s = some ⟨rtm.captured, rm.fact_table, rtm.fact_table⟩
      ∧ rm.fact_table.length = rtm.fact_table.length
      ∧ ∀ t j, t < rm.fact_table.length → j < n → ∃ fk ptr row,
          rm.fact_table[t]? = some fk ∧ rtm.fact_table[t]? = some ptr
            ∧ resolve_foreign_key rtm.captured.dimension_indexes fk j
                = some (rtm.captured.dimension_indexes, row)
            ∧ resolve_pointer ptr j = some row
            ∧ (∀ row', resolve_pointer ptr j = some row' →
                row'.id_ = row.id_ ∧ row'.info_ = row.info_) := by
  refine ⟨star_schema n k, _, _, setup_eq n k, get_fact_table_foreign_key n k L hn hsz,
    get_fact_table_pointer n k L hn hsz, repetition_star_schema n k L hn hsz, ?_, ?_⟩
  · simp only [length_emitted]
  · intro t j ht hj
    simp only [length_emitted, Nat.sub_zero] at ht
    have ht' : t < ((lex_product k n).take L).length := by
      rw [List.length_take]; exact ht
    have hmem : ((lex_product k n).take L)[t] ∈ lex_product k n :=
      List.mem_of_mem_take (List.getElem_mem ht')
    obtain ⟨a, ha, hak⟩ := getElem?_of_mem_lex_product k n _ hmem j hj
    refine ⟨⟨((lex_product k n).take L)[t]⟩,
      ⟨encode_from (fun _ j => some (dimension_row j)) 0 ((lex_product k n).take L)[t]⟩,
      dimension_row a, ?_, ?_, ?_, ?_, ?_⟩
    · simp only [getElem?_emitted, Nat.sub_zero, List.getElem?_eq_getElem ht', Option.map_some',
        List.nil_append, encode_from_row_index]
    · simp only [getElem?_emitted, Nat.sub_zero, List.getElem?_eq_getElem ht', Option.map_some',
        List.nil_append]
    · exact resolve_foreign_key_star_schema n k _ j a hj ha hak
    · exact resolve_pointer_encoded _ j a ha
    · intro row' h
      rw [resolve_pointer_encoded _ j a ha] at h
      injection h with h
      subst h
      exact ⟨rfl, rfl⟩

/-- C4, witness: `n = 2`, `k = 3`, `L = 5`. -/
theorem C4_encoding_equivalence_witness :
    1 ≤ 2 ∧ 2 < size_t_modulus ∧
    ∃ s rm rtm, setup 2 3 = some s
      ∧ get_fact_table 3 5 2 s [] add_foreign_key_to_tuple = some rm
      ∧ get_fact_table 3 5 2 rm.captured [] add_pointer_to_tuple = some rtm
      ∧ repetition 3 5 2 s = some ⟨rtm.captured, rm.fact_table, rtm.fact_table⟩
      ∧ rm.fact_table.length = rtm.fact_table.length
      ∧ ∀ t j, t < rm.fact_table.length → j < 2 → ∃ fk ptr row,
          rm.fact_table[t]? = some fk ∧ rtm.fact_table[t]? = some ptr
            ∧ resolve_foreign_key rtm.captured.dimension_indexes fk j
                = some (rtm.captured.dimension_indexes, row)
            ∧ resolve_pointer ptr j = some row
            ∧ (∀ row', resolve_pointer ptr j = some row' →
                row'.id_ = row.id_ ∧ row'.info_ = row.info_) :=
  ⟨by decide, by decide, C4_encoding_equivalence 2 3 5 (by decide) (by decide)⟩

/-- C6 (dimension store contents). The setup loop for `n` dimensions with `k`
rows each succeeds and leaves exactly `n` dimension tables; every table has
exactly `k` rows, and the row at position `j < k` has `id_ = j` and `info_`
the decimal text of `j`. -/
theorem C6_dimension_store (n k : Nat) :
    ∃ s, setup n k = some s
      ∧ s.dimensions.length = n
      ∧ ∀ d, d < n → ∃ table, s.dimensions[d]? = some table
          ∧ table.length = k
          ∧ ∀ j, j < k → ∃ row, table[j]? = some row ∧ row.id_ = j ∧ row.info_ = to_string j := by
  refine ⟨star_schema n k, setup_eq n k, by simp [star_schema], ?_⟩
  intro d hd
  refine ⟨dimension_table k, by simp [star_schema, hd], length_dimension_table k, ?_⟩
  intro j hj
  exact ⟨dimension_row j, getElem?_dimension_table k j hj, rfl, rfl⟩

/-- C6, witness: two dimensions of three rows. -/
theorem C6_dimension_store_witness :
    ∃ s, setup 2 3 = some s
      ∧ s.dimensions = [[⟨0, "0"⟩, ⟨1, "1"⟩, ⟨2, "2"⟩], [⟨0, "0"⟩, ⟨1, "1"⟩, ⟨2, "2"⟩]] := by
  obtain ⟨s, h, _⟩ := C6_dimension_store 2 3
  refine ⟨s, h, ?_⟩
  have e : setup 2 3 = some (star_schema 2 3) := setup_eq 2 3
  rw [h] at e
  injection e with e
  rw [e]
  decide

/-- C7 (index completeness). After the setup loop, for every dimension `d`
and every row `r` of dimension table `d`, the index `dimension_indexes[d]`
holds the key `r.id_`, and the handle stored under it is not null and refers
to a row with the same `id_` and the same `info_` as `r`. -/
theorem C7_index_completeness (n k : Nat) :
    ∃ s, setup n k = some s
      ∧ s.dimension_indexes.length = n
      ∧ ∀ (d : Nat) (table : DimensionTable), s.dimensions[d]? = some table →
          ∃ index : DimensionTableIndex, s.dimension_indexes[d]? = some index
            ∧ ∀ r ∈ table, ∃ r' : DimensionObject, index.lookup r.id_ = some (some r')
                ∧ r'.id_ = r.id_ ∧ r'.info_ = r.info_ := by
  refine ⟨star_schema n k, setup_eq n k, by simp [star_schema], ?_⟩
  intro d table hd
  have hdn : d < n := by
    by_contra hc
    simp [star_schema, List.getElem?_replicate, hc] at hd
  have ht : table = dimension_table k := by
    simp [star_schema, hdn] at hd
    exact hd.symm
  subst ht
  refine ⟨dimension_index k, by simp [star_schema, hdn], ?_⟩
  intro r hr
  obtain ⟨j, hj, rfl⟩ := List.mem_map.mp hr
  exact ⟨dimension_row j, lookup_dimension_index k j (List.mem_range.mp hj), rfl, rfl⟩

/-- C7, witness: in the reference configuration of four dimensions with 100
rows, key 7 of dimension 0 resolves to the row with id 7 and info "7". -/
theorem C7_index_completeness_witness :
    ∃ (s : StarSchema) (index : DimensionTableIndex), setup 4 100 = some s
      ∧ s.dimension_indexes[0]? = some index
      ∧ index.lookup 7 = some (some ⟨7, "7"⟩) := by
  obtain ⟨s, h, _, H⟩ := C7_index_completeness 4 100
  have e : setup 4 100 = some (star_schema 4 100) := setup_eq 4 100
  rw [h] at e
  injection e with e
  subst e
  obtain ⟨index, hi, hr⟩ := H 0 (dimension_table 100) rfl
  refine ⟨_, index, h, hi, ?_⟩
  obtain ⟨r', h', hid, hinfo⟩ := hr (dimension_row 7)
    (List.mem_map.mpr ⟨7, List.mem_range.mpr (by decide : 7 < 100), rfl⟩)
  have e7 : r' = ⟨7, "7"⟩ := by
    cases r' with
    | mk a b =>
      simp only at hid hinfo
      subst hid
      subst hinfo
      decide
  rw [← e7]
  exact h'

/-- C8 (no lookup miss). For a dimension count `n ≥ 1` (a `size_t`), and every
`k` and `L`: both scans of a repetition run to their end without undefined
behaviour. For every tuple of `fact_table_RM` and every column `j < n` the
entry `relations_[j]` exists and is a key present in `dimension_indexes[j]`
with a handle that is not null; for every tuple of `fact_table_RTM` and every
column `j < n` the entry `relations_[j]` exists and is not null. -/
theorem C8_no_lookup_miss (n k L : Nat) (hn : 1 ≤ n) (hsz : n < size_t_modulus) :
    ∃ s rm rtm, setup n k = some s
      ∧ get_fact_table k L n s [] add_foreign_key_to_tuple = some rm
      ∧ get_fact_table k L n rm.captured [] add_pointer_to_tuple = some rtm
      ∧ scan_foreign_keys n rm.fact_table rtm.captured.dimension_indexes
          = some rtm.captured.dimension_indexes
      ∧ scan_pointers n rtm.fact_table = some ()
      ∧ (∀ o ∈ rm.fact_table, ∀ j, j < n →
          ∃ (key : Nat) (index : DimensionTableIndex) (row : DimensionObject),
            o.relations_[j]? = some key ∧ rtm.captured.dimension_indexes[j]? = some index
              ∧ index.lookup key = some (some row))
      ∧ (∀ o ∈ rtm.fact_table, ∀ j, j < n →
          ∃ row : DimensionObject, o.relations_[j]? = some (some row)) := by
  refine ⟨star_schema n k, _, _, setup_eq n k, get_fact_table_foreign_key n k L hn hsz,
    get_fact_table_pointer n k L hn hsz,
    scan_foreign_keys_star_schema n k _ (mem_foreign_key_table k n L),
    scan_pointers_encoded k n _ (mem_pointer_table k n L), ?_, ?_⟩
  · intro o ho j hj
    obtain ⟨a, ha, hak⟩ :=
      getElem?_of_mem_lex_product k n _ (mem_foreign_key_table k n L o ho) j hj
    exact ⟨a, dimension_index k, dimension_row a, ha,
      by simp [star_schema, hj], lookup_dimension_index k a hak⟩
  · intro o ho j hj
    obtain ⟨u, hu, rfl⟩ := mem_pointer_table k n L o ho
    obtain ⟨a, ha, _⟩ := getElem?_of_mem_lex_product k n u hu j hj
    exact ⟨dimension_row a, by simp [getElem?_encode_from, ha]⟩

/-- C8, witness: `n = 2`, `k = 3`, `L = 5`. -/
theorem C8_no_lookup_miss_witness :
    1 ≤ 2 ∧ 2 < size_t_modulus ∧
    ∃ s rm rtm, setup 2 3 = some s
      ∧ get_fact_table 3 5 2 s [] add_foreign_key_to_tuple = some rm
      ∧ get_fact_table 3 5 2 rm.captured [] add_pointer_to_tuple = some rtm
      ∧ scan_foreign_keys 2 rm.fact_table rtm.captured.dimension_indexes
          = some rtm.captured.dimension_indexes
      ∧ scan_pointers 2 rtm.fact_table = some ()
      ∧ (∀ o ∈ rm.fact_table, ∀ j, j < 2 →
          ∃ (key : Nat) (index : DimensionTableIndex) (row : DimensionObject),
            o.relations_[j]? = some key ∧ rtm.captured.dimension_indexes[j]? = some index
              ∧ index.lookup key = some (some row))
      ∧ (∀ o ∈ rtm.fact_table, ∀ j, j < 2 →
          ∃ row : DimensionObject, o.relations_[j]? = some (some row)) :=
  ⟨by decide, by decide, C8_no_lookup_miss 2 3 5 (by decide) (by decide)⟩

/-- C9 (resolution does not mutate). For a dimension count `n ≥ 1` (a
`size_t`), and every `k` and `L`: a complete repetition (both builds and both
scans) succeeds and leaves the dimension tables and the dimension indexes
exactly as the setup loop built them, and so does any number of repetitions
and `evaluate_for_n_dimensions` as a whole. Resolving a stored foreign key
leaves the indexes as they are, so resolving it a second time yields the same
row. -/
theorem C9_resolution_does_not_mutate (n k L : Nat) (hn : 1 ≤ n) (hsz : n < size_t_modulus) :
    ∃ s rep, setup n k = some s
      ∧ repetition k L n s = some rep
      ∧ rep.schema = s
      ∧ (∀ r, repetitions k L n r s = some s)
      ∧ evaluate_for_n_dimensions k L n = some s
      ∧ ∀ o ∈ rep.fact_table_RM, ∀ j, j < n → ∃ d1 row,
          resolve_foreign_key s.dimension_indexes o j = some (d1, row)
            ∧ resolve_foreign_key d1 o j = some (d1, row)
            ∧ d1 = s.dimension_indexes := by
  refine ⟨star_schema n k, _, setup_eq n k, repetition_star_schema n k L hn hsz, rfl,
    repetitions_star_schema n k L hn hsz, ?_, ?_⟩
  · unfold evaluate_for_n_dimensions
    simp only [setup_eq, repetitions_star_schema n k L hn hsz]
  · intro o ho j hj
    obtain ⟨a, ha, hak⟩ :=
      getElem?_of_mem_lex_product k n _ (mem_foreign_key_table k n L o ho) j hj
    have h := resolve_foreign_key_star_schema n k o.relations_ j a hj ha hak
    exact ⟨_, dimension_row a, h, h, rfl⟩

/-- C9, witness: `n = 2`, `k = 3`, `L = 5`; the star schema at the end of
`evaluate_for_n_dimensions` is the one the setup loop built. -/
theorem C9_resolution_does_not_mutate_witness :
    1 ≤ 2 ∧ 2 < size_t_modulus ∧ evaluate_for_n_dimensions 3 5 2 = setup 2 3 := by
  refine ⟨by decide, by decide, ?_⟩
  obtain ⟨s, rep, h1, _, _, _, h2, _⟩ :=
    C9_resolution_does_not_mutate 2 3 5 (by decide) (by decide)
  rw [h1, h2]

/-! ## Claims on the run of `get_fact_table` -/

/-- C13 (tuple width). For a dimension count `n ≥ 1` (a `size_t`), every `k`
and `L`, an empty `current_tuple` and a callback that appends exactly one value
per call (whatever it does to its captured state), `get_fact_table` returns and
every tuple of the fact table has exactly `n` column values. -/
theorem C13_tuple_width {σ T : Type} (n k L : Nat) (add : Callback σ T) (c : σ)
    (hn : 1 ≤ n) (hsz : n < size_t_modulus)
    (hadd : ∀ d j c t, ∃ c' x, add d j (c, t) = some (c', t ++ [x])) :
    ∃ r, get_fact_table k L n c [] add = some r
      ∧ ∀ o ∈ r.fact_table, o.relations_.length = n := by
  obtain ⟨r, ev, _, h, _, _, hlen, _⟩ :=
    get_fact_table_events_in_range k L n add (fun _ => True) c [] trivial
      (fun d j c t _ _ _ => by
        obtain ⟨c', x, hx⟩ := hadd d j c t
        exact ⟨c', x, hx, trivial⟩)
  refine ⟨r, h, ?_⟩
  intro o ho
  rw [hlen o ho, List.length_nil, Nat.zero_add, last_dimension_table_index_succ n hn hsz]

/-- C13, witness: `n = 2`, `k = 3`, `L = 5` with the callback recording the row
index. -/
theorem C13_tuple_width_witness :
    1 ≤ 2 ∧ 2 < size_t_modulus
      ∧ (∀ (d j : Nat) (c : Unit) (t : List Nat),
          ∃ c' x, push_row_index d j (c, t) = some (c', t ++ [x]))
      ∧ ∃ r, get_fact_table 3 5 2 () [] push_row_index = some r
          ∧ ∀ o ∈ r.fact_table, o.relations_.length = 2 :=
  ⟨by decide, by decide, fun _ j c t => ⟨c, j, rfl⟩,
    C13_tuple_width 2 3 5 push_row_index () (by decide) (by decide)
      (fun _ j c t => ⟨c, j, rfl⟩)⟩

/-- C14 (early termination). For every dimension count `n`, every `k` and `L`
and a callback that appends one value per call: in the run of
`get_fact_table`, the counter recorded with every call of the callback and
with every append to the fact table is the number of tuples appended before
it, and it is below `L`; so once the number of emitted tuples has reached `L`
there is no further call and no further tuple, and for `L = 0` the callback is
never called. -/
theorem C14_early_termination {σ T : Type} (n k L : Nat) (add : Callback σ T) (c : σ)
    (hadd : ∀ d j c t, ∃ c' x, add d j (c, t) = some (c', t ++ [x])) :
    ∃ r ev, get_fact_table_events k L n c [] add = some (r, ev)
      ∧ get_fact_table k L n c [] add = some r
      ∧ counters_agree 0 ev
      ∧ r.tuples_in_fact_table = emit_count ev
      ∧ (∀ d j cnt, Event.call d j cnt ∈ ev → cnt < L)
      ∧ (∀ cnt, Event.emit cnt ∈ ev → cnt < L)
      ∧ (L = 0 → ∀ d j cnt, Event.call d j cnt ∉ ev) := by
  obtain ⟨r, ev, he, h, _, _, _, hev⟩ :=
    get_fact_table_events_in_range k L n add (fun _ => True) c [] trivial
      (fun d j c t _ _ _ => by
        obtain ⟨c', x, hx⟩ := hadd d j c t
        exact ⟨c', x, hx, trivial⟩)
  obtain ⟨hagree, hcount⟩ := get_fact_table_events_counters k L n c [] add (r, ev) he
  refine ⟨r, ev, he, h, hagree, hcount, fun d j cnt hm => (hev _ hm).2.2,
    fun cnt hm => hev _ hm, ?_⟩
  intro hL d j cnt hm
  have hlt : cnt < L := (hev _ hm).2.2
  omega

/-- C14, witness: `n = 2`, `k = 2`, `L = 3`; the run stops after the third
tuple. -/
theorem C14_early_termination_witness :
    (∀ (d j : Nat) (c : Unit) (t : List Nat),
        ∃ c' x, push_row_index d j (c, t) = some (c', t ++ [x]))
      ∧ ∃ r, get_fact_table_events 2 3 2 () [] push_row_index
          = some (r, [Event.enter 0, Event.call 0 0 0, Event.enter 1, Event.call 1 0 0,
              Event.emit 0, Event.call 1 1 1, Event.emit 1, Event.call 0 1 2, Event.enter 1,
              Event.call 1 0 2, Event.emit 2]) := by
  refine ⟨fun _ j c t => ⟨c, j, rfl⟩, ?_⟩
  obtain ⟨r, ev, h, _⟩ := C14_early_termination 2 2 3 push_row_index ()
    (fun _ j c t => ⟨c, j, rfl⟩)
  refine ⟨r, ?_⟩
  have e : (get_fact_table_events 2 3 2 () [] push_row_index).map (fun r => r.2)
      = some [Event.enter 0, Event.call 0 0 0, Event.enter 1, Event.call 1 0 0,
          Event.emit 0, Event.call 1 1 1, Event.emit 1, Event.call 0 1 2, Event.enter 1,
          Event.call 1 0 2, Event.emit 2] := by decide
  rw [h] at e ⊢
  simp only [Option.map_some', Option.some.injEq] at e
  rw [e]

/-- C15 (termination). For a dimension count `n ≥ 1` (a `size_t`), every `k`
and `L` and a callback that appends one value per call: the recursive
enumeration of `get_fact_table` returns, with a recursion budget of `n`
levels, and the lambda is entered only at levels `dimension_table_index < n`. -/
theorem C15_termination {σ T : Type} (n k L : Nat) (add : Callback σ T) (c : σ)
    (hn : 1 ≤ n) (hsz : n < size_t_modulus)
    (hadd : ∀ d j c t, ∃ c' x, add d j (c, t) = some (c', t ++ [x])) :
    ∃ r ev, get_fact_table_events k L n c [] add = some (r, ev)
      ∧ get_fact_table k L n c [] add = some r
      ∧ rec_pointer k L add (n - 1) n 0 ⟨c, [], [], 0⟩ = some r
      ∧ (∀ d, Event.enter d ∈ ev → d < n)
      ∧ (∀ d j cnt, Event.call d j cnt ∈ ev → d < n) := by
  obtain ⟨r, ev, he, h, _, _, _, hev⟩ :=
    get_fact_table_events_in_range k L n add (fun _ => True) c [] trivial
      (fun d j c t _ _ _ => by
        obtain ⟨c', x, hx⟩ := hadd d j c t
        exact ⟨c', x, hx, trivial⟩)
  have hlast := last_dimension_table_index_succ n hn hsz
  have hlast' : last_dimension_table_index n = n - 1 := by omega
  refine ⟨r, ev, he, h, ?_, ?_, ?_⟩
  · have h' := h
    unfold get_fact_table at h'
    rw [hlast, hlast'] at h'
    exact h'
  · intro d hm
    have : d ≤ last_dimension_table_index n := hev _ hm
    omega
  · intro d j cnt hm
    have : d ≤ last_dimension_table_index n := (hev _ hm).1
    omega

/-- C15, witness: `n = 2`, `k = 3`, `L = 5` with the callback recording the row
index. -/
theorem C15_termination_witness :
    1 ≤ 2 ∧ 2 < size_t_modulus
      ∧ (∀ (d j : Nat) (c : Unit) (t : List Nat),
          ∃ c' x, push_row_index d j (c, t) = some (c', t ++ [x]))
      ∧ ∃ r ev, get_fact_table_events 3 5 2 () [] push_row_index = some (r, ev)
          ∧ get_fact_table 3 5 2 () [] push_row_index = some r
          ∧ rec_pointer 3 5 push_row_index (2 - 1) 2 0 ⟨(), [], [], 0⟩ = some r
          ∧ (∀ d, Event.enter d ∈ ev → d < 2)
          ∧ (∀ d j cnt, Event.call d j cnt ∈ ev → d < 2) :=
  ⟨by decide, by decide, fun _ j c t => ⟨c, j, rfl⟩,
    C15_termination 2 3 5 push_row_index () (by decide) (by decide)
      (fun _ j c t => ⟨c, j, rfl⟩)⟩

/-- C19 (callback arguments stay in range). For a dimension count `n ≥ 1` (a
`size_t`), every `k` and `L`: every call `add_entry_to_tuple(d, j)` made by
`get_fact_table` has `d < n` and `j < k`, for a callback that appends one value
per call; and in the two builds over the star schema of the setup loop every
call made to `add_foreign_key_to_tuple` and to `add_pointer_to_tuple` has
`d < n` and `j < k`, the row `dimensions[d][j]` exists and the key `j` is
present in `dimension_indexes[d]` with a handle that is not null. -/
theorem C19_arguments_in_range {σ T : Type} (n k L : Nat) (add : Callback σ T) (c : σ)
    (hn : 1 ≤ n) (hsz : n < size_t_modulus)
    (hadd : ∀ d j c t, ∃ c' x, add d j (c, t) = some (c', t ++ [x])) :
    (∃ r ev, get_fact_table_events k L n c [] add = some (r, ev)
      ∧ ∀ d j cnt, Event.call d j cnt ∈ ev → d < n ∧ j < k)
    ∧ ∃ s, setup n k = some s
      ∧ (∃ rm ev, get_fact_table_events k L n s [] add_foreign_key_to_tuple = some (rm, ev)
          ∧ rm.captured = s
          ∧ ∀ d j cnt, Event.call d j cnt ∈ ev → d < n ∧ j < k
              ∧ ∃ (table : DimensionTable) (row : DimensionObject),
                  s.dimensions[d]? = some table ∧ table[j]? = some row)
      ∧ (∃ rtm ev, get_fact_table_events k L n s [] add_pointer_to_tuple = some (rtm, ev)
          ∧ rtm.captured = s
          ∧ ∀ d j cnt, Event.call d j cnt ∈ ev → d < n ∧ j < k
              ∧ ∃ (index : DimensionTableIndex) (row : DimensionObject),
                  s.dimension_indexes[d]? = some index
                    ∧ index.lookup j = some (some row)) := by
  have hlast := last_dimension_table_index_succ n hn hsz
  refine ⟨?_, star_schema n k, setup_eq n k, ?_, ?_⟩
  · obtain ⟨r, ev, he, _, _, _, _, hev⟩ :=
      get_fact_table_events_in_range k L n add (fun _ => True) c [] trivial
        (fun d j c t _ _ _ => by
          obtain ⟨c', x, hx⟩ := hadd d j c t
          exact ⟨c', x, hx, trivial⟩)
    refine ⟨r, ev, he, ?_⟩
    intro d j cnt hm
    obtain ⟨h1, h2, _⟩ := hev _ hm
    exact ⟨by omega, h2⟩
  · obtain ⟨r, ev, he, _, hinv, _, _, hev⟩ :=
      get_fact_table_events_in_range k L n add_foreign_key_to_tuple
        (fun c => c = star_schema n k) (star_schema n k) [] rfl
        (fun d j c t hd hj hc => by
          subst hc
          exact ⟨star_schema n k, j,
            add_foreign_key_to_tuple_star_schema n k d j t (by omega) hj, rfl⟩)
    refine ⟨r, ev, he, hinv, ?_⟩
    intro d j cnt hm
    obtain ⟨h1, h2, _⟩ := hev _ hm
    have hd : d < n := by omega
    exact ⟨hd, h2, dimension_table k, dimension_row j, by simp [star_schema, hd],
      getElem?_dimension_table k j h2⟩
  · obtain ⟨r, ev, he, _, hinv, _, _, hev⟩ :=
      get_fact_table_events_in_range k L n add_pointer_to_tuple
        (fun c => c = star_schema n k) (star_schema n k) [] rfl
        (fun d j c t hd hj hc => by
          subst hc
          exact ⟨star_schema n k, some (dimension_row j),
            add_pointer_to_tuple_star_schema n k d j t (by omega) hj, rfl⟩)
    refine ⟨r, ev, he, hinv, ?_⟩
    intro d j cnt hm
    obtain ⟨h1, h2, _⟩ := hev _ hm
    have hd : d < n := by omega
    exact ⟨hd, h2, dimension_index k, dimension_row j, by simp [star_schema, hd],
      lookup_dimension_index k j h2⟩

/-- C19, witness: `n = 2`, `k = 3`, `L = 5`; the calls made with the callback
recording the row index. -/
theorem C19_arguments_in_range_witness :
    1 ≤ 2 ∧ 2 < size_t_modulus
      ∧ (∀ (d j : Nat) (c : Unit) (t : List Nat),
          ∃ c' x, push_row_index d j (c, t) = some (c', t ++ [x]))
      ∧ ∃ r ev, get_fact_table_events 3 5 2 () [] push_row_index = some (r, ev)
          ∧ ∀ d j cnt, Event.call d j cnt ∈ ev → d < 2 ∧ j < 3 :=
  ⟨by decide, by decide, fun _ j c t => ⟨c, j, rfl⟩,
    (C19_arguments_in_range 2 3 5 push_row_index () (by decide) (by decide)
      (fun _ j c t => ⟨c, j, rfl⟩)).1⟩

/-- C17 (closed form). For a dimension count `n ≥ 1` (a `size_t`), every `k`
and `L`: the fact table built with the callback recording the row index has
`min L (k ^ n)` tuples, and for every position `t < min L (k ^ n)` and every
column `d < n` the tuple at position `t` has `n` columns and holds at column
`d` the value `(t / k ^ (n - 1 - d)) % k`. -/
theorem C17_closed_form (n k L : Nat) (hn : 1 ≤ n) (hsz : n < size_t_modulus) :
    ∃ tbl, tuples_of (get_fact_table k L n () [] push_row_index) = some tbl
      ∧ tbl.length = min L (k ^ n)
      ∧ ∀ t d, t < min L (k ^ n) → d < n →
          ∃ u, tbl[t]? = some u ∧ u.length = n
            ∧ u[d]? = some ((t / k ^ (n - 1 - d)) % k) := by
  refine ⟨(lex_product k n).take L, ?_, ?_, ?_⟩
  · rw [tuples_of_row_index, last_dimension_table_index_succ n hn hsz]
  · rw [List.length_take, length_lex_product]
  · intro t d ht hd
    have htL : t < L := Nat.lt_of_lt_of_le ht (Nat.min_le_left _ _)
    have htk : t < k ^ n := Nat.lt_of_lt_of_le ht (Nat.min_le_right _ _)
    rw [List.getElem?_take_of_lt htL]
    exact getElem?_lex_product k n t d htk hd

/-- C17, witness: `n = 2`, `k = 3`, `L = 5`; position 4 is the tuple `(1, 1)`,
the digits of 4 in base 3. -/
theorem C17_closed_form_witness :
    1 ≤ 2 ∧ 2 < size_t_modulus
      ∧ ∃ tbl, tuples_of (get_fact_table 3 5 2 () [] push_row_index) = some tbl
          ∧ tbl[4]? = some [1, 1]
          ∧ (4 / 3 ^ (2 - 1 - 0)) % 3 = 1 ∧ (4 / 3 ^ (2 - 1 - 1)) % 3 = 1 := by
  refine ⟨by decide, by decide, ?_⟩
  obtain ⟨tbl, h, _, _⟩ := C17_closed_form 2 3 5 (by decide) (by decide)
  refine ⟨tbl, h, ?_, by decide, by decide⟩
  have e : tuples_of (get_fact_table 3 5 2 () [] push_row_index)
      = some [[0, 0], [0, 1], [0, 2], [1, 0], [1, 1]] := by decide
  rw [h] at e
  injection e with e
  rw [e]
  rfl

/-- C18 (rows referenced in the reference configuration). With 100 rows per
dimension table and the cap 50,000,000, for every dimension count `n` from 4
to 10: `fact_table_RM` has 50,000,000 tuples; in every tuple the columns
`0..n-5` hold the id 0 and the column `n-4` holds an id below 50; and each of
the last three columns takes every id `0..99` in some tuple. -/
theorem C18_referenced_rows (n : Nat) (h4 : 4 ≤ n) (h10 : n ≤ 10) :
    ∃ s rm, setup n number_of_tuples_in_dimension_tables = some s
      ∧ get_fact_table number_of_tuples_in_dimension_tables number_of_tuples_in_fact_table n s []
          add_foreign_key_to_tuple = some rm
      ∧ rm.fact_table.length = 50000000
      ∧ (∀ o ∈ rm.fact_table,
          (∀ d, d + 5 ≤ n → o.relations_[d]? = some 0)
            ∧ ∃ v, o.relations_[n - 4]? = some v ∧ v < 50)
      ∧ (∀ c v, n - 3 ≤ c → c < n → v < 100 →
          ∃ o ∈ rm.fact_table, o.relations_[c]? = some v) := by
  have hsz : n < size_t_modulus := Nat.lt_of_le_of_lt h10 (by decide)
  have hpow4 : (100 : Nat) ^ 4 ≤ 100 ^ n := Nat.pow_le_pow_right (by decide) h4
  have hmin : min 50000000 ((100 : Nat) ^ n) = 50000000 := by
    apply Nat.min_eq_left
    have : (50000000 : Nat) ≤ 100 ^ 4 := by norm_num
    omega
  obtain ⟨rm, hrm, hlen, hmem, hall⟩ :=
    foreign_key_table_positions n 100 50000000 (by omega) hsz
  rw [hmin] at hlen hmem hall
  refine ⟨star_schema n 100, rm, setup_eq n 100, hrm, hlen, ?_, ?_⟩
  · intro o ho
    obtain ⟨t, ht, hdig⟩ := hmem o ho
    refine ⟨?_, ?_⟩
    · intro d hd
      rw [hdig d (by omega)]
      have hle : (100 : Nat) ^ 4 ≤ 100 ^ (n - 1 - d) :=
        Nat.pow_le_pow_right (by decide) (by omega)
      have h8 : (100 : Nat) ^ 4 = 100000000 := by norm_num
      have hz : t / 100 ^ (n - 1 - d) = 0 := Nat.div_eq_of_lt (by omega)
      rw [hz]
    · refine ⟨(t / 100 ^ (n - 1 - (n - 4))) % 100, hdig (n - 4) (by omega), ?_⟩
      have he : n - 1 - (n - 4) = 3 := by omega
      rw [he]
      have h6 : (100 : Nat) ^ 3 = 1000000 := by norm_num
      rw [h6]
      omega
  · intro c v hc hcn hv
    have h2 : (100 : Nat) ^ (n - 1 - c) ≤ 100 ^ 2 :=
      Nat.pow_le_pow_right (by decide) (by omega)
    have h2' : (100 : Nat) ^ 2 = 10000 := by norm_num
    have hp : 0 < (100 : Nat) ^ (n - 1 - c) := Nat.pos_pow_of_pos _ (by decide)
    have hbound : v * 100 ^ (n - 1 - c) < 50000000 := by
      have : v * 100 ^ (n - 1 - c) ≤ 99 * 100 ^ 2 :=
        Nat.mul_le_mul (by omega) h2
      omega
    obtain ⟨o, ho, hdig⟩ := hall (v * 100 ^ (n - 1 - c)) hbound
    refine ⟨o, ho, ?_⟩
    rw [hdig c hcn, Nat.mul_div_cancel _ hp, Nat.mod_eq_of_lt hv]

/-- C18, witness: the dimension count `n = 4`. -/
theorem C18_referenced_rows_witness :
    4 ≤ 4 ∧ 4 ≤ 10 ∧
    ∃ s rm, setup 4 number_of_tuples_in_dimension_tables = some s
      ∧ get_fact_table number_of_tuples_in_dimension_tables number_of_tuples_in_fact_table 4 s []
          add_foreign_key_to_tuple = some rm
      ∧ rm.fact_table.length = 50000000
      ∧ (∀ o ∈ rm.fact_table,
          (∀ d, d + 5 ≤ 4 → o.relations_[d]? = some 0)
            ∧ ∃ v, o.relations_[4 - 4]? = some v ∧ v < 50)
      ∧ (∀ c v, 4 - 3 ≤ c → c < 4 → v < 100 →
          ∃ o ∈ rm.fact_table, o.relations_[c]? = some v) :=
  ⟨by decide, by decide, C18_referenced_rows 4 (by decide) (by decide)⟩

/-! ## Claims on the output and on `main` -/

/-- C12 (one record per repetition, phase and encoding). With the measured
times as values that are not looked into: whenever a call of
`evaluate_for_n_dimensions` returns, it has appended to `output_build` the
records `build_records` and to `output` the records `scan_records`; for a
dimension count `n ≥ 1` (a `size_t`) the call returns. Each of the two lists
has `2 * number_of_repetitions = 20` records, and the record at position `i`
has `n` as its first field and the kind `foreign` for even `i`, `pointer` for
odd `i`. -/
theorem C12_one_record_per_measurement {τ : Type} (duration : Nat → Nat → τ) (n k L : Nat)
    (o : Streams τ) :
    (∀ r, evaluate_for_n_dimensions_records duration k L n o = some r →
        r.2.output = o.output ++ scan_records duration n (List.range number_of_repetitions)
          ∧ r.2.output_build
              = o.output_build ++ build_records duration n (List.range number_of_repetitions))
      ∧ (1 ≤ n → n < size_t_modulus →
          ∃ r, evaluate_for_n_dimensions_records duration k L n o = some r)
      ∧ (scan_records duration n (List.range number_of_repetitions)).length
          = 2 * number_of_repetitions
      ∧ (build_records duration n (List.range number_of_repetitions)).length
          = 2 * number_of_repetitions
      ∧ 2 * number_of_repetitions = 20
      ∧ (∀ i, i < 20 → (scan_records duration n (List.range number_of_repetitions))[i]?
          = some (Line.record n
              (if i % 2 = 0 then EncodingKind.foreign else EncodingKind.pointer)
              (duration (i / 2) (2 + i % 2))))
      ∧ (∀ i, i < 20 → (build_records duration n (List.range number_of_repetitions))[i]?
          = some (Line.record n
              (if i % 2 = 0 then EncodingKind.foreign else EncodingKind.pointer)
              (duration (i / 2) (i % 2)))) := by
  refine ⟨?_, ?_, rfl, rfl, rfl, ?_, ?_⟩
  · intro r h
    unfold evaluate_for_n_dimensions_records at h
    rw [setup_eq] at h
    exact repetitions_records_streams duration k L n _ _ o r h
  · intro hn hsz
    exact ⟨_, evaluate_for_n_dimensions_records_eq duration k L n o hn hsz⟩
  · intro i hi
    interval_cases i <;> rfl
  · intro i hi
    interval_cases i <;> rfl

/-- C12, witness: `n = 2`, `k = 3`, `L = 5`, starting from empty files: the
call returns and leaves 20 records in each file. -/
theorem C12_one_record_per_measurement_witness :
    1 ≤ 2 ∧ 2 < size_t_modulus
      ∧ ∃ r, evaluate_for_n_dimensions_records (fun _ _ => ()) 3 5 2 ⟨[], []⟩ = some r
          ∧ r.2.output.length = 20 ∧ r.2.output_build.length = 20 := by
  refine ⟨by decide, by decide, ?_⟩
  obtain ⟨h1, h2, h3, h4, h5, _, _⟩ :=
    C12_one_record_per_measurement (fun _ _ => ()) 2 3 5 ⟨[], []⟩
  obtain ⟨r, hr⟩ := h2 (by decide) (by decide)
  obtain ⟨ha, hb⟩ := h1 r hr
  refine ⟨r, hr, ?_, ?_⟩
  · rw [ha, List.nil_append, h3, h5]
  · rw [hb, List.nil_append, h4, h5]

/-- C16 (driver guard). For a library function `pow` whose result has a
relative error of at most one half: `main` returns, it skips the dimension
counts 2 and 3 and calls `evaluate_for_n_dimensions` for 4, 5, 6, 7, 8, 9, 10
in this order; for every `i` from 2 to 10 the comparison of the guard agrees
with the comparison `100 ^ i < 50,000,000` of natural numbers, and
`100 ^ i ≥ 50,000,000` holds exactly for `i ≥ 4`. -/
theorem C16_driver_guard {τ : Type} (pow : Nat → Nat → ℚ) (duration : Nat → Nat → Nat → τ)
    (hpow : ∀ i, 2 ≤ i → i ≤ 10 → |pow 100 i - (100 : ℚ) ^ i| ≤ (100 : ℚ) ^ i / 2) :
    (∃ o, main pow duration
        = some ([MainStep.skipped 2, MainStep.skipped 3, MainStep.evaluated 4,
            MainStep.evaluated 5, MainStep.evaluated 6, MainStep.evaluated 7,
            MainStep.evaluated 8, MainStep.evaluated 9, MainStep.evaluated 10], o))
      ∧ ∀ i, 2 ≤ i → i ≤ max_number_of_dimension_tables →
          ((pow number_of_tuples_in_dimension_tables i < (number_of_tuples_in_fact_table : ℚ))
              ↔ number_of_tuples_in_dimension_tables ^ i < number_of_tuples_in_fact_table)
            ∧ (number_of_tuples_in_fact_table ≤ number_of_tuples_in_dimension_tables ^ i
              ↔ 4 ≤ i) := by
  refine ⟨main_steps pow duration hpow, ?_⟩
  intro i h2 h10
  simp only [max_number_of_dimension_tables] at h10
  have hg := guard_iff pow hpow i h2 h10
  have hexact : number_of_tuples_in_dimension_tables ^ i < number_of_tuples_in_fact_table
      ↔ i < 4 := by
    simp only [number_of_tuples_in_dimension_tables, number_of_tuples_in_fact_table]
    interval_cases i <;> norm_num
  refine ⟨hg.trans hexact.symm, ?_⟩
  rw [← Nat.not_lt, hexact]
  omega

/-- C16, witness: a `pow` that returns the exact power. -/
theorem C16_driver_guard_witness :
    (∀ i, 2 ≤ i → i ≤ 10 →
        |(fun x y : Nat => (x : ℚ) ^ y) 100 i - (100 : ℚ) ^ i| ≤ (100 : ℚ) ^ i / 2)
      ∧ ∃ o, main (fun x y : Nat => (x : ℚ) ^ y) (fun _ _ _ => ())
          = some ([MainStep.skipped 2, MainStep.skipped 3, MainStep.evaluated 4,
              MainStep.evaluated 5, MainStep.evaluated 6, MainStep.evaluated 7,
              MainStep.evaluated 8, MainStep.evaluated 9, MainStep.evaluated 10], o) := by
  have hpow : ∀ i, 2 ≤ i → i ≤ 10 →
      |(fun x y : Nat => (x : ℚ) ^ y) 100 i - (100 : ℚ) ^ i| ≤ (100 : ℚ) ^ i / 2 := by
    intro i _ _
    simp only [Nat.cast_ofNat, sub_self, abs_zero]
    positivity
  exact ⟨hpow, (C16_driver_guard (fun x y : Nat => (x : ℚ) ^ y) (fun _ _ _ => ()) hpow).1⟩

/-- C11 (every fact table has full size). For a library function `pow` whose
result has a relative error of at most one half: `main` returns, and for every
dimension count `n` for which it calls `evaluate_for_n_dimensions`,
`100 ^ n ≥ 50,000,000` holds, every repetition starts from the star schema of
the setup loop, and the repetition builds `fact_table_RM` and `fact_table_RTM`
with exactly 50,000,000 tuples each. -/
theorem C11_full_size {τ : Type} (pow : Nat → Nat → ℚ) (duration : Nat → Nat → Nat → τ)
    (hpow : ∀ i, 2 ≤ i → i ≤ 10 → |pow 100 i - (100 : ℚ) ^ i| ≤ (100 : ℚ) ^ i / 2) :
    ∃ steps o, main pow duration = some (steps, o)
      ∧ ∀ n, MainStep.evaluated n ∈ steps →
          number_of_tuples_in_fact_table ≤ number_of_tuples_in_dimension_tables ^ n
            ∧ ∃ s, setup n number_of_tuples_in_dimension_tables = some s
              ∧ (∀ r, repetitions number_of_tuples_in_dimension_tables
                    number_of_tuples_in_fact_table n r s = some s)
              ∧ ∃ rep, repetition number_of_tuples_in_dimension_tables
                    number_of_tuples_in_fact_table n s = some rep
                ∧ rep.fact_table_RM.length = 50000000
                ∧ rep.fact_table_RTM.length = 50000000 := by
  obtain ⟨o, ho⟩ := main_steps pow duration hpow
  refine ⟨_, o, ho, ?_⟩
  intro n hm
  have hn : 4 ≤ n ∧ n ≤ 10 := by
    simp at hm
    omega
  have hsz : n < size_t_modulus := Nat.lt_of_le_of_lt hn.2 (by decide)
  have hpow4 : (100 : Nat) ^ 4 ≤ 100 ^ n := Nat.pow_le_pow_right (by decide) hn.1
  have h8 : (100 : Nat) ^ 4 = 100000000 := by norm_num
  have hfull : (50000000 : Nat) ≤ 100 ^ n := by omega
  refine ⟨hfull, star_schema n 100, setup_eq n 100,
    repetitions_star_schema n 100 50000000 (by omega) hsz, _,
    repetition_star_schema n 100 50000000 (by omega) hsz, ?_, ?_⟩
  · simp only [length_emitted, length_lex_product, Nat.sub_zero]
    exact Nat.min_eq_left hfull
  · simp only [length_emitted, length_lex_product, Nat.sub_zero]
    exact Nat.min_eq_left hfull

/-- C11, witness: a `pow` that returns the exact power. -/
theorem C11_full_size_witness :
    (∀ i, 2 ≤ i → i ≤ 10 →
        |(fun x y : Nat => (x : ℚ) ^ y) 100 i - (100 : ℚ) ^ i| ≤ (100 : ℚ) ^ i / 2)
      ∧ ∃ rep, repetition number_of_tuples_in_dimension_tables number_of_tuples_in_fact_table 4
            (star_schema 4 number_of_tuples_in_dimension_tables) = some rep
          ∧ rep.fact_table_RM.length = 50000000
          ∧ rep.fact_table_RTM.length = 50000000 := by
  have hpow : ∀ i, 2 ≤ i → i ≤ 10 →
      |(fun x y : Nat => (x : ℚ) ^ y) 100 i - (100 : ℚ) ^ i| ≤ (100 : ℚ) ^ i / 2 := by
    intro i _ _
    simp only [Nat.cast_ofNat, sub_self, abs_zero]
    positivity
  refine ⟨hpow, ?_⟩
  obtain ⟨steps, o, hmain, h⟩ :=
    C11_full_size (fun x y : Nat => (x : ℚ) ^ y) (fun _ _ _ => ()) hpow
  obtain ⟨o', ho'⟩ := main_steps (fun x y : Nat => (x : ℚ) ^ y) (fun _ _ _ => ()) hpow
  rw [hmain] at ho'
  injection ho' with ho'
  injection ho' with hsteps _
  obtain ⟨_, s, hs, _, rep, hrep, h1, h2⟩ := h 4 (by rw [hsteps]; decide)
  have e : setup 4 number_of_tuples_in_dimension_tables
      = some (star_schema 4 number_of_tuples_in_dimension_tables) := setup_eq _ _
  rw [hs] at e
  injection e with e
  subst e
  exact ⟨rep, hrep, h1, h2⟩

end Benchmark
